import Mathlib

/-!
# gayes: a Naive Bayes ham/spam classifier (`main.go`)

A shallow embedding of `main.go` and theorems about it.

Modelling conventions.

* Go's `int` is the two's-complement integer of the platform, 64 bits wide on the 64-bit
  platforms the program is run on.  It is modelled as `Int`, and every
  arithmetic operation the program performs on an `int` is followed by `wrapInt`, the
  reduction into `[-2^63, 2^63)`.
* Go's `float64` is an arbitrary carrier `F` with the operations the program uses
  (`0`, `+`, `-`, `/`, `<`, the conversion `float64(n)` and `math.Log`).  The definitions are
  polymorphic in `F` and executable; the theorems that read `ln` as the natural logarithm
  over the reals instantiate `F` with `ℝ` and `math.Log` with `Real.log`, and the theorems
  about rounding instantiate `F` with `F64`, the IEEE 754 binary64 format, and `math.Log`
  with any function that has the values of `math.Log` at the arguments that occur.
* A Go `map[string]int` is an association list with pairwise distinct keys (`AList`).
  `for k := range m` visits the keys in an unspecified order: every such loop takes the
  list of keys in the order visited, and theorems quantify over every permutation of the keys.
* The file system, the Unicode tables and the map iteration order are collected in `Runtime`.
-/

namespace Gayes

/-! ## Machine integers -/

/-- Reduction of an integer into the range of Go's 64-bit `int` (two's complement wrap-around). -/
def wrapInt (x : Int) : Int := (x + 2 ^ 63) % 2 ^ 64 - 2 ^ 63

/-- The values a Go `int` can hold. -/
def isGoInt (x : Int) : Prop := -2 ^ 63 ≤ x ∧ x < 2 ^ 63

instance (x : Int) : Decidable (isGoInt x) := by unfold isGoInt; infer_instance

/-! ## Bag of words -/

/-- Bag of words, `type Bow map[string]int`. -/
abbrev Bow := AList (fun _ : String => Int)

/-- The map read `bow[word]`: the stored count, or `0` when `word` is not a key. -/
def Bow.get (bow : Bow) (word : String) : Int := (bow.lookup word).getD 0

/-- The list of the values stored in the map. -/
def Bow.values (bow : Bow) : List Int := bow.entries.map (fun e => e.2)

/-- The type `MailType`, a string. -/
abbrev MailType := String

/-- The constant `Ham`. -/
def Ham : MailType := "ham"

/-- The constant `Spam`. -/
def Spam : MailType := "spam"

/-- The error value returned by a failed file read. -/
abbrev FileError := String

/-- A directory entry as seen by the callback of `filepath.WalkDir`: only `IsDir` is used. -/
structure DirEntry where
  isDir : Bool
deriving DecidableEq

/-- One invocation of the `filepath.WalkDir` callback, with its three arguments: the path,
the entry `d` (`none` is the nil entry passed when the root itself cannot be examined) and
the error `err` (`none` is nil; non-nil when the root cannot be examined and on the second
invocation for a directory that cannot be read). -/
structure Visit where
  path : String
  d : Option DirEntry
  err : Option FileError
deriving DecidableEq

/-- What the program takes from its environment. -/
structure Runtime where
  /-- Go's `unicode.IsSpace` -/
  isSpace : Char → Bool
  /-- Go's `unicode.IsPunct` -/
  isPunct : Char → Bool
  /-- Go's `unicode.IsLetter` -/
  isLetter : Char → Bool
  /-- Go's `os.ReadFile`, with the bytes decoded into runes (an invalid byte being the
  rune U+FFFD, as `range` over a string decodes it) -/
  readFile : String → Except FileError String
  /-- the order in which `range` visits the keys of a map -/
  rangeOrder : Bow → List String
  /-- the sequence of callback invocations `filepath.WalkDir` makes for a root,
  in case no callback returns an error -/
  walkDir : String → List Visit

/-- The loop of `strings.FieldsFunc`: `cur` is the field being read (empty when between
fields), the result is the list of fields found from here on. -/
def fieldsFuncLoop (f : Char → Bool) : List Char → List Char → List (List Char)
  | [], cur => if cur = [] then [] else [cur]
  | c :: cs, cur =>
    if f c then
      if cur = [] then fieldsFuncLoop f cs [] else cur :: fieldsFuncLoop f cs []
    else fieldsFuncLoop f cs (cur ++ [c])

/-- Go's `strings.FieldsFunc(s, f)`: the maximal runs of runes of `s` that do not satisfy `f`. -/
def fieldsFunc (s : String) (f : Char → Bool) : List String :=
  (fieldsFuncLoop f s.data []).map String.mk

/-- The function `tokenizeFile`. -/
def tokenizeFile (rt : Runtime) (data : String) : List String :=
  fieldsFunc data (fun r => rt.isSpace r || rt.isPunct r || !rt.isLetter r)

/-- The function `addWordsToBow`: `bow[word] += 1` for each word in turn. -/
def addWordsToBow (bow : Bow) (words : List String) : Bow :=
  words.foldl (fun b word => b.insert word (wrapInt (b.get word + 1))) bow

/-- The function `addFileToBow`: the error of the read, or the map after the words of the
file were added. -/
def addFileToBow (rt : Runtime) (path : String) (bow : Bow) : Except FileError Bow :=
  match rt.readFile path with
  | .error err => .error err
  | .ok data => .ok (addWordsToBow bow (tokenizeFile rt data))

/-- The loop of `totalWordCount` over the keys in the order `order`. -/
def totalWordCountOver (order : List String) (bow : Bow) : Int :=
  order.foldl (fun count token => wrapInt (count + bow.get token)) 0

/-- The function `totalWordCount`. -/
def totalWordCount (rt : Runtime) (bow : Bow) : Int :=
  totalWordCountOver (rt.rangeOrder bow) bow

/-! ## The classifier -/

/-- The struct `mailCategorizer`. -/
structure mailCategorizer where
  hamBow : Bow
  spamBow : Bow
  totalHamCount : Int
  totalSpamCount : Int
  totalCount : Int

/-- The function `newMailCategorizer`. -/
def newMailCategorizer (hamBow spamBow : Bow) (totalHamCount totalSpamCount : Int) :
    mailCategorizer :=
  { hamBow := hamBow
    spamBow := spamBow
    totalHamCount := totalHamCount
    totalSpamCount := totalSpamCount
    totalCount := wrapInt (totalHamCount + totalSpamCount) }

/-- The three running sums of `categorizeMail`. -/
@[ext]
structure Sums (F : Type) where
  pDHam : F
  pDSpam : F
  pD : F

section Scoring

variable {F : Type} [Zero F] [Add F] [Sub F] [Div F] [IntCast F]

/-- The body of the loop `for word := range emailBow` of `categorizeMail` (lines 119-124). -/
def scoreWord (log : F → F) (mc : mailCategorizer) (acc : Sums F) (word : String) : Sums F :=
  if mc.hamBow.get word = 0 ∨ mc.spamBow.get word = 0 then acc
  else
    { pDHam := acc.pDHam + log ((mc.hamBow.get word : F) / (mc.totalHamCount : F))
      pDSpam := acc.pDSpam + log ((mc.spamBow.get word : F) / (mc.totalSpamCount : F))
      pD := acc.pD +
        log ((wrapInt (mc.hamBow.get word + mc.spamBow.get word) : F) / (mc.totalCount : F)) }

/-- Lines 112-130 of `categorizeMail`: the scores of a document whose words are visited in
the order `order`, as the pair `(ham, spam)`. -/
def scoreWords (log : F → F) (mc : mailCategorizer) (order : List String) : F × F :=
  let pHam := log ((mc.totalHamCount : F) / (mc.totalCount : F))
  let pSpam := log ((mc.totalSpamCount : F) / (mc.totalCount : F))
  let acc := order.foldl (scoreWord log mc) { pDHam := 0, pDSpam := 0, pD := 0 }
  (acc.pDHam + pHam - acc.pD, acc.pDSpam + pSpam - acc.pD)

/-- The method `categorizeMail`: `(ham, spam, err)`. -/
def categorizeMail (rt : Runtime) (log : F → F) (mc : mailCategorizer) (path : String) :
    F × F × Option FileError :=
  match addFileToBow rt path ∅ with
  | .error err => (0, 0, some err)
  | .ok emailBow =>
    let r := scoreWords log mc (rt.rangeOrder emailBow)
    (r.1, r.2, none)

/-- Lines 146-150 of `categorizeMails`: the tallies `(hamCount, spamCount)` after a document
with scores `ham` and `spam` was counted. -/
def countMail [LT F] [DecidableRel (fun a b : F => a < b)] (tally : Int × Int) (ham spam : F) :
    Int × Int :=
  if spam < ham then (wrapInt (tally.1 + 1), tally.2) else (tally.1, wrapInt (tally.2 + 1))

/-- How a run of the callback ends when it does not return nil. -/
inductive Abort where
  /-- the callback returned a non-nil error -/
  | failed (err : FileError)
  /-- the callback dereferenced the nil entry -/
  | nilEntry
deriving DecidableEq

/-- The callback that `categorizeMails` passes to `filepath.WalkDir` (lines 136-152),
as a function of the tallies.  The callback never reads its argument `err`. -/
def categorizeMailsVisit [LT F] [DecidableRel (fun a b : F => a < b)] (rt : Runtime)
    (log : F → F) (mc : mailCategorizer) (tally : Int × Int) (v : Visit) :
    Except Abort (Int × Int) :=
  match v.d with
  | none => .error Abort.nilEntry
  | some d =>
    if d.isDir then .ok tally
    else
      match categorizeMail rt log mc v.path with
      | (_, _, some err) => .error (Abort.failed err)
      | (ham, spam, none) => .ok (countMail tally ham spam)

/-- The walk of `filepath.WalkDir`: the callback runs on each visit in turn and the walk
stops at the first one that does not return nil. -/
def walkVisits [LT F] [DecidableRel (fun a b : F => a < b)] (rt : Runtime)
    (log : F → F) (mc : mailCategorizer) : Int × Int → List Visit → Except Abort (Int × Int)
  | tally, [] => .ok tally
  | tally, v :: vs =>
    match categorizeMailsVisit rt log mc tally v with
    | .error a => .error a
    | .ok tally1 => walkVisits rt log mc tally1 vs

/-- The method `categorizeMails`: `some (hamCount, spamCount, err)` when the function returns,
`none` when it panics. -/
def categorizeMails [LT F] [DecidableRel (fun a b : F => a < b)] (rt : Runtime)
    (log : F → F) (mc : mailCategorizer) (mailType : MailType) :
    Option (Int × Int × Option FileError) :=
  match walkVisits rt log mc (0, 0) (rt.walkDir ("./enron6/" ++ mailType ++ "/")) with
  | .error Abort.nilEntry => none
  | .error (Abort.failed err) => some (0, 0, some err)
  | .ok tally => some (tally.1, tally.2, none)

/-- Whether the document at `path` is one that `categorizeMails` counts as ham. -/
def countsAsHam [LT F] [DecidableRel (fun a b : F => a < b)] (rt : Runtime)
    (log : F → F) (mc : mailCategorizer) (path : String) : Bool :=
  decide ((categorizeMail rt log mc path).2.1 < (categorizeMail rt log mc path).1)

end Scoring

/-- Whether the callback is invoked on something that is not a directory. -/
def Visit.isFile (v : Visit) : Bool :=
  match v.d with
  | some d => !d.isDir
  | none => false

/-- Lines 173-176 of `main`: the classifier built from the two trained models. -/
def mainCategorizer (rt : Runtime) (hamBow spamBow : Bow) : mailCategorizer :=
  newMailCategorizer hamBow spamBow (totalWordCount rt hamBow) (totalWordCount rt spamBow)

/-- The files on which `categorizeMails` runs the classifier: the entries of the walk of
"./enron6/<mailType>/" that are not directories. -/
def walkedFiles (rt : Runtime) (mailType : MailType) : List Visit :=
  (rt.walkDir ("./enron6/" ++ mailType ++ "/")).filter Visit.isFile

/-- The distinct words of the document `d` that have a nonzero count in both models. -/
def informative (mc : mailCategorizer) (d : Bow) : Finset String :=
  d.keys.toFinset.filter (fun w => mc.hamBow.get w ≠ 0 ∧ mc.spamBow.get w ≠ 0)

/-! ## Concrete data of the end-to-end scenarios -/

/-- The ham model `{"free": 1, "meeting": 5}`. -/
def exampleHam : Bow := (AList.insert "free" 1 (AList.insert "meeting" 5 ∅) : Bow)

/-- The spam model `{"free": 9, "win": 7}`. -/
def exampleSpam : Bow := (AList.insert "free" 9 (AList.insert "win" 7 ∅) : Bow)

/-- A model whose only word is "a", once. -/
def modelA : Bow := (AList.insert "a" 1 ∅ : Bow)

/-- A model whose only word is "b", once. -/
def modelB : Bow := (AList.insert "b" 1 ∅ : Bow)

/-- The classifier of the end-to-end scenarios: `H = 6`, `S = 16`. -/
def exampleCategorizer : mailCategorizer := newMailCategorizer exampleHam exampleSpam 6 16

/-- The word counts of a document whose only word is "free". -/
def freeMail : Bow := addWordsToBow ∅ ["free"]

/-- The word counts of a document whose only word is "meeting". -/
def meetingMail : Bow := addWordsToBow ∅ ["meeting"]

/-- The runtime of the examples: ASCII letters, one file "mail.txt" holding the text
"meeting, 10:30!", keys visited in stored order. -/
def exampleRuntime : Runtime :=
  { isSpace := fun c => c = ' '
    isPunct := fun c => c = ',' || c = '!' || c = ':'
    isLetter := Char.isAlpha
    readFile := fun path =>
      if path = "mail.txt" then Except.ok "meeting, 10:30!" else Except.error "no such file"
    rangeOrder := fun b => b.keys
    walkDir := fun _ => [⟨"mail.txt", some ⟨false⟩, none⟩] }

/-- A model whose only word is "a", with the largest count an `int` can hold. -/
def maxCountBow : Bow := (AList.insert "a" (2 ^ 63 - 1) ∅ : Bow)

/-- A runtime in which the root of the walk does not exist: `filepath.WalkDir` invokes the
callback once, with the nil entry and the error of the failed `Lstat`. -/
def missingRootRuntime : Runtime :=
  { exampleRuntime with
    walkDir := fun root => [⟨root, none, some "no such file or directory"⟩] }

/-- A runtime in which the root holds a subdirectory that cannot be read and the file
"mail.txt": `filepath.WalkDir` invokes the callback on the root, on the subdirectory, a
second time on the subdirectory with the error of the failed `ReadDir`, and on the file. -/
def unreadableDirRuntime : Runtime :=
  { exampleRuntime with
    walkDir := fun root =>
      [⟨root, some ⟨true⟩, none⟩,
       ⟨root ++ "sub", some ⟨true⟩, none⟩,
       ⟨root ++ "sub", some ⟨true⟩, some "permission denied"⟩,
       ⟨"mail.txt", some ⟨false⟩, none⟩] }

/-! ## Floating point

Go's `float64` is the IEEE 754 binary64 format with round-to-nearest-even arithmetic.  The
model below has the not-a-number, the two infinities and the finite values `m * 2^e`, kept
in the one form the format gives them (`2^52 ≤ |m| < 2^53` for a normal value, `e = -1074`
for a subnormal one, `m = 0`, `e = 0` for zero).  The sign of zero is not kept: the program
never divides by a zero other than `float64(0)`. -/

/-- A `float64` value. -/
inductive F64 where
  /-- not a number -/
  | nan
  /-- positive infinity -/
  | posInf
  /-- negative infinity -/
  | negInf
  /-- the finite value `m * 2^e` -/
  | fin (m : Int) (e : Int)
deriving DecidableEq

/-- One step of the search for the position of the highest bit of `n`. -/
def highBitStep (n : Nat) (k s : Nat) : Nat := if n >>> (k + s) = 0 then k else k + s

/-- The position of the highest bit of `n`, for `0 < n < 2^4096`. -/
def highBit (n : Nat) : Nat :=
  [2048, 1024, 512, 256, 128, 64, 32, 16, 8, 4, 2, 1].foldl (highBitStep n) 0

/-- The `float64` nearest to `n * 2^e` (to `-n * 2^e` when `negative`), ties going to the
even significand; an infinity when that value is beyond the largest `float64`. -/
def F64.round (negative : Bool) (n : Nat) (e : Int) : F64 :=
  if n = 0 then F64.fin 0 0
  else
    let ev : Int := (highBit n : Int) + e
    let qe : Int := (if ev < -1022 then -1022 else ev) - 52
    let shift : Int := qe - e
    let m : Nat :=
      if shift ≤ 0 then n <<< (-shift).toNat
      else
        let q := n >>> shift.toNat
        let r := n - (q <<< shift.toNat)
        let half := 1 <<< (shift.toNat - 1)
        if r < half then q
        else if half < r then q + 1
        else if q % 2 = 0 then q else q + 1
    let m2 : Nat := if m = 2 ^ 53 then 2 ^ 52 else m
    let qe2 : Int := if m = 2 ^ 53 then qe + 1 else qe
    if m2 = 0 then F64.fin 0 0
    else if 971 < qe2 then (if negative then F64.negInf else F64.posInf)
    else F64.fin (if negative then -(m2 : Int) else (m2 : Int)) qe2

/-- The conversion `float64(n)` of an `int`. -/
def F64.ofInt (n : Int) : F64 := F64.round (decide (n < 0)) n.natAbs 0

/-- The negation of a `float64`. -/
def F64.neg : F64 → F64
  | .nan => .nan
  | .posInf => .negInf
  | .negInf => .posInf
  | .fin m e => .fin (-m) e

/-- The sum of two `float64`. -/
def F64.add : F64 → F64 → F64
  | .nan, _ => .nan
  | _, .nan => .nan
  | .posInf, .negInf => .nan
  | .negInf, .posInf => .nan
  | .posInf, _ => .posInf
  | _, .posInf => .posInf
  | .negInf, _ => .negInf
  | _, .negInf => .negInf
  | .fin m1 e1, .fin m2 e2 =>
    let e := if e1 ≤ e2 then e1 else e2
    let s : Int := m1 * ((1 <<< (e1 - e).toNat : Nat) : Int) +
      m2 * ((1 <<< (e2 - e).toNat : Nat) : Int)
    F64.round (decide (s < 0)) s.natAbs e

/-- The difference of two `float64`. -/
def F64.sub (x y : F64) : F64 := F64.add x (F64.neg y)

/-- The quotient of two `float64`: the exact quotient is cut after 128 more bits than the
dividend has, a last bit recording whether anything was cut off, and then rounded. -/
def F64.div : F64 → F64 → F64
  | .nan, _ => .nan
  | _, .nan => .nan
  | .fin m1 e1, .fin m2 e2 =>
    if m2 = 0 then (if m1 = 0 then .nan else if m1 < 0 then .negInf else .posInf)
    else
      let q := (m1.natAbs <<< 128) / m2.natAbs
      let r := (m1.natAbs <<< 128) % m2.natAbs
      F64.round (decide (m1 < 0) != decide (m2 < 0)) (2 * q + (if r = 0 then 0 else 1))
        (e1 - e2 - 129)
  | .fin _ _, _ => .fin 0 0
  | .posInf, .fin m2 _ => if m2 < 0 then .negInf else .posInf
  | .negInf, .fin m2 _ => if m2 < 0 then .posInf else .negInf
  | _, _ => .nan

/-- The comparison `x < y` of two `float64`: false when either is not a number. -/
def F64.lt : F64 → F64 → Bool
  | .nan, _ => false
  | _, .nan => false
  | .fin m1 e1, .fin m2 e2 =>
    let e := if e1 ≤ e2 then e1 else e2
    decide (m1 * ((1 <<< (e1 - e).toNat : Nat) : Int) <
      m2 * ((1 <<< (e2 - e).toNat : Nat) : Int))
  | .negInf, .negInf => false
  | .negInf, _ => true
  | .posInf, _ => false
  | .fin _ _, .posInf => true
  | .fin _ _, .negInf => false

instance : Zero F64 := ⟨F64.fin 0 0⟩

instance : Add F64 := ⟨F64.add⟩

instance : Sub F64 := ⟨F64.sub⟩

instance : Div F64 := ⟨F64.div⟩

instance : IntCast F64 := ⟨F64.ofInt⟩

instance : LT F64 := ⟨fun x y => F64.lt x y = true⟩

instance : DecidableRel (fun a b : F64 => a < b) := fun x y => by
  show Decidable (F64.lt x y = true); infer_instance

section LogArguments

variable {F : Type} [Div F] [IntCast F]

/-- The arguments at which the loop of `categorizeMail` calls `math.Log`, the words being
visited in the order given. -/
def logArgsOfWords (mc : mailCategorizer) : List String → List F
  | [] => []
  | w :: ws =>
    (if mc.hamBow.get w = 0 ∨ mc.spamBow.get w = 0 then []
     else
      [(mc.hamBow.get w : F) / (mc.totalHamCount : F),
       (mc.spamBow.get w : F) / (mc.totalSpamCount : F),
       (wrapInt (mc.hamBow.get w + mc.spamBow.get w) : F) / (mc.totalCount : F)]) ++
      logArgsOfWords mc ws

/-- All the arguments at which `categorizeMail` calls `math.Log` (lines 115-124). -/
def logArgs (mc : mailCategorizer) (order : List String) : List F :=
  (mc.totalHamCount : F) / (mc.totalCount : F) ::
    (mc.totalSpamCount : F) / (mc.totalCount : F) :: logArgsOfWords mc order

end LogArguments

/-- The function that takes the values a table lists, and not-a-number elsewhere. -/
def tableLog (table : List (F64 × F64)) (x : F64) : F64 :=
  match table.lookup x with
  | some v => v
  | none => F64.nan

/-- Values of `math.Log`, to the nearest `float64`, at the seven arguments the float
examples use: `ln(1/10000000) = -16.11809565095832`,
`ln(4399932/10000000) = -0.8209960067347075`, `ln(4170727/10000000) = -0.8744947318513013`,
`ln(10000000/20000000) = -0.6931471805599453`, `ln(4399933/20000000) = -1.5141429600184388`,
`ln(8570659/20000000) = -0.8473876477513016`, `ln(4170728/20000000) = -1.567641672644923`. -/
def mathLogTable : List (F64 × F64) :=
  [(((1 : Int) : F64) / ((10000000 : Int) : F64), F64.fin (-4536840597973619) (-48)),
   (((4399932 : Int) : F64) / ((10000000 : Int) : F64), F64.fin (-7394874620006188) (-53)),
   (((4170727 : Int) : F64) / ((10000000 : Int) : F64), F64.fin (-7876748297005965) (-53)),
   (((10000000 : Int) : F64) / ((20000000 : Int) : F64), F64.fin (-6243314768165359) (-53)),
   (((4399933 : Int) : F64) / ((20000000 : Int) : F64), F64.fin (-6819093670524701) (-52)),
   (((8570659 : Int) : F64) / ((20000000 : Int) : F64), F64.fin (-7632589389302246) (-53)),
   (((4170728 : Int) : F64) / ((20000000 : Int) : F64), F64.fin (-7060030452774136) (-52))]

/-- A model of 10000000 words: "x" once, "y" 4399932 times, "z" 4170727 times and "w"
1429340 times. -/
def floatModelA : Bow :=
  (AList.insert "x" 1 (AList.insert "y" 4399932 (AList.insert "z" 4170727
    (AList.insert "w" 1429340 ∅))) : Bow)

/-- A model of 10000000 words: "x" 4399932 times, "y" 4170727 times, "z" once and "w"
1429340 times. -/
def floatModelB : Bow :=
  (AList.insert "x" 4399932 (AList.insert "y" 4170727 (AList.insert "z" 1
    (AList.insert "w" 1429340 ∅))) : Bow)

/-- The classifier with ham model `floatModelA` and spam model `floatModelB`. -/
def floatCategorizer : mailCategorizer :=
  newMailCategorizer floatModelA floatModelB 10000000 10000000

/-- The classifier with the two models of `floatCategorizer` exchanged. -/
def floatCategorizerSwapped : mailCategorizer :=
  newMailCategorizer floatModelB floatModelA 10000000 10000000

/-- The word counts of a document with the words "x", "y" and "z", once each. -/
def xyzMail : Bow := addWordsToBow ∅ ["x", "y", "z"]

/-- The word counts of a document with the same words, "x" occurring twice. -/
def xyzMailTwice : Bow := addWordsToBow ∅ ["y", "z", "x", "x"]

/-- A model whose only word is "ham", `2^53 + 1` times. -/
def roundedHamModel : Bow := (AList.insert "ham" (2 ^ 53 + 1) ∅ : Bow)

/-- A model whose only word is "spam", `2^53` times. -/
def roundedSpamModel : Bow := (AList.insert "spam" (2 ^ 53) ∅ : Bow)

/-- A classifier with `H = 2^53 + 1` and `S = 2^53`, the totals of its two models: the two
totals are different `int`s with the same conversion to `float64`. -/
def roundedTotalsCategorizer : mailCategorizer :=
  newMailCategorizer roundedHamModel roundedSpamModel (2 ^ 53 + 1) (2 ^ 53)

/-- A model whose only word is "ham", `2^62 + 2^61` times. -/
def wrappedHamModel : Bow := (AList.insert "ham" (2 ^ 62 + 2 ^ 61) ∅ : Bow)

/-- A model whose only word is "spam", `2^62` times. -/
def wrappedSpamModel : Bow := (AList.insert "spam" (2 ^ 62) ∅ : Bow)

/-- A classifier with `H = 2^62 + 2^61` and `S = 2^62`, the totals of its two models: the
`int` sum of the two totals wraps around. -/
def wrappedTotalCategorizer : mailCategorizer :=
  newMailCategorizer wrappedHamModel wrappedSpamModel (2 ^ 62 + 2 ^ 61) (2 ^ 62)

/-! ## Machine integers: basic facts -/

theorem wrapInt_of_isGoInt {x : Int} (h : isGoInt x) : wrapInt x = x := by
  unfold isGoInt at h
  unfold wrapInt
  omega

theorem isGoInt_wrapInt (x : Int) : isGoInt (wrapInt x) := by
  unfold isGoInt wrapInt
  omega

theorem wrapInt_wrapInt_add (a b : Int) : wrapInt (wrapInt a + b) = wrapInt (a + b) := by
  unfold wrapInt
  omega

/-- The state `newMailCategorizer` builds has `totalCount = totalHamCount + totalSpamCount`
whenever that sum is an `int`. -/
theorem newMailCategorizer_totalCount (hamBow spamBow : Bow) (a b : Int)
    (h : isGoInt (a + b)) :
    (newMailCategorizer hamBow spamBow a b).totalCount =
      (newMailCategorizer hamBow spamBow a b).totalHamCount +
        (newMailCategorizer hamBow spamBow a b).totalSpamCount :=
  wrapInt_of_isGoInt h

/-! ## Bags of words: reads, writes and sums -/

theorem Bow.get_empty (x : String) : Bow.get (∅ : Bow) x = 0 := by
  simp [Bow.get]

theorem Bow.get_insert (b : Bow) (w x : String) (v : Int) :
    Bow.get (b.insert w v) x = if x = w then v else b.get x := by
  unfold Bow.get
  split_ifs with h
  · subst h
    rw [AList.lookup_insert]
    rfl
  · rw [AList.lookup_insert_ne h]

theorem Bow.get_eq_zero_of_not_mem {b : Bow} {x : String} (h : x ∉ b) : b.get x = 0 := by
  unfold Bow.get
  rw [AList.lookup_eq_none.mpr h]
  rfl

theorem addWordsToBow_nil (b : Bow) : addWordsToBow b [] = b := rfl

theorem addWordsToBow_cons (b : Bow) (w : String) (ws : List String) :
    addWordsToBow b (w :: ws) = addWordsToBow (b.insert w (wrapInt (b.get w + 1))) ws := rfl

/-- A word is a key after `addWordsToBow` exactly when it was one before or it is one of
the words added. -/
theorem mem_addWordsToBow (b : Bow) (ws : List String) (x : String) :
    x ∈ addWordsToBow b ws ↔ x ∈ b ∨ x ∈ ws := by
  induction ws generalizing b with
  | nil => simp [addWordsToBow_nil]
  | cons w ws ih =>
    rw [addWordsToBow_cons, ih, AList.mem_insert, List.mem_cons]
    tauto

/-- The count of a word after `addWordsToBow`, in machine arithmetic. -/
theorem get_addWordsToBow (b : Bow) (ws : List String) (x : String) :
    (addWordsToBow b ws).get x =
      if x ∈ ws then wrapInt (b.get x + (ws.count x : Int)) else b.get x := by
  induction ws generalizing b with
  | nil => simp [addWordsToBow_nil]
  | cons w ws ih =>
    rw [addWordsToBow_cons, ih, Bow.get_insert]
    by_cases hxw : x = w
    · subst hxw
      by_cases hx : x ∈ ws
      · simp only [hx, if_true, List.mem_cons, or_true, List.count_cons_self]
        rw [wrapInt_wrapInt_add]
        congr 1
        push_cast
        ring
      · simp only [hx, if_false, if_true, List.mem_cons, true_or, List.count_cons_self,
          List.count_eq_zero_of_not_mem hx]
        simp
    · have hwx : ¬ w = x := fun h => hxw h.symm
      by_cases hx : x ∈ ws
      · simp [hx, hxw, List.count_cons, hwx]
      · simp [hx, hxw]

/-- The loop of `totalWordCount` computes the wrapped sum of the counts it reads. -/
theorem foldl_wrapInt_add (g : String → Int) (order : List String) (c : Int) :
    wrapInt (order.foldl (fun count token => wrapInt (count + g token)) c) =
      wrapInt (c + (order.map g).sum) := by
  induction order generalizing c with
  | nil => simp
  | cons t ts ih =>
    rw [List.foldl_cons, ih, wrapInt_wrapInt_add, List.map_cons, List.sum_cons, add_assoc]

theorem foldl_wrapInt_isGoInt (g : String → Int) (order : List String) (c : Int)
    (hc : isGoInt c) :
    isGoInt (order.foldl (fun count token => wrapInt (count + g token)) c) := by
  induction order generalizing c with
  | nil => simpa using hc
  | cons t ts ih =>
    rw [List.foldl_cons]
    exact ih _ (isGoInt_wrapInt _)

theorem totalWordCountOver_eq (order : List String) (bow : Bow) :
    totalWordCountOver order bow = wrapInt ((order.map bow.get).sum) := by
  have h0 : isGoInt 0 := by unfold isGoInt; omega
  have h := foldl_wrapInt_add bow.get order 0
  rw [wrapInt_of_isGoInt (foldl_wrapInt_isGoInt bow.get order 0 h0)] at h
  simpa [totalWordCountOver] using h

/-- Reading every key of an association list with distinct keys gives the stored values. -/
theorem map_dlookup_keys (l : List (Sigma (fun _ : String => Int))) (h : l.NodupKeys) :
    l.keys.map (fun k => (l.dlookup k).getD 0) = l.map (fun e => e.2) := by
  induction l with
  | nil => rfl
  | cons e es ih =>
    obtain ⟨k, v⟩ := e
    rw [List.nodupKeys_cons] at h
    simp only [List.keys_cons, List.map_cons, List.dlookup_cons_eq, Option.getD_some]
    congr 1
    rw [← ih h.2]
    apply List.map_congr_left
    intro x hx
    have hne : k ≠ x := by
      rintro rfl
      exact h.1 hx
    rw [List.dlookup_cons_ne _ _ (Ne.symm hne)]

theorem Bow.map_get_keys (bow : Bow) : bow.keys.map bow.get = bow.values :=
  map_dlookup_keys bow.entries bow.nodupKeys

/-- Whatever the order in which `range` visits the keys, `totalWordCount` is the wrapped sum
of the stored values. -/
theorem totalWordCountOver_perm (order : List String) (bow : Bow)
    (h : order.Perm bow.keys) :
    totalWordCountOver order bow = wrapInt bow.values.sum := by
  rw [totalWordCountOver_eq, ← Bow.map_get_keys, (h.map bow.get).sum_eq]

/-! ## The scoring loop -/

section ScoringLemmas

variable {F : Type} [AddCommMonoid F] [Div F] [IntCast F]

/-- A word with a zero count in one of the models leaves the three running sums as they
are, whatever the arithmetic. -/
theorem scoreWord_skip (log : F → F) (mc : mailCategorizer) (acc : Sums F) (w : String)
    (h : mc.hamBow.get w = 0 ∨ mc.spamBow.get w = 0) : scoreWord log mc acc w = acc := by
  unfold scoreWord
  rw [if_pos h]

/-- The running sums after the loop, as sums over the words that are not skipped, in the
order visited. -/
theorem foldl_scoreWord (log : F → F) (mc : mailCategorizer) (order : List String)
    (acc : Sums F) :
    order.foldl (scoreWord log mc) acc =
      { pDHam := acc.pDHam + ((order.filter
          (fun w => decide (mc.hamBow.get w ≠ 0 ∧ mc.spamBow.get w ≠ 0))).map
          (fun w => log ((mc.hamBow.get w : F) / (mc.totalHamCount : F)))).sum
        pDSpam := acc.pDSpam + ((order.filter
          (fun w => decide (mc.hamBow.get w ≠ 0 ∧ mc.spamBow.get w ≠ 0))).map
          (fun w => log ((mc.spamBow.get w : F) / (mc.totalSpamCount : F)))).sum
        pD := acc.pD + ((order.filter
          (fun w => decide (mc.hamBow.get w ≠ 0 ∧ mc.spamBow.get w ≠ 0))).map
          (fun w => log ((wrapInt (mc.hamBow.get w + mc.spamBow.get w) : F) /
            (mc.totalCount : F)))).sum } := by
  induction order generalizing acc with
  | nil => ext <;> simp
  | cons w ws ih =>
    rw [List.foldl_cons, ih]
    by_cases h : mc.hamBow.get w = 0 ∨ mc.spamBow.get w = 0
    · have hf : decide (mc.hamBow.get w ≠ 0 ∧ mc.spamBow.get w ≠ 0) = false := by
        rw [decide_eq_false_iff_not]
        tauto
      rw [scoreWord_skip log mc acc w h]
      simp only [List.filter_cons, hf, Bool.false_eq_true, if_false]
    · have hf : decide (mc.hamBow.get w ≠ 0 ∧ mc.spamBow.get w ≠ 0) = true := by
        rw [decide_eq_true_iff]
        tauto
      simp only [List.filter_cons, hf, if_true, List.map_cons, List.sum_cons]
      unfold scoreWord
      rw [if_neg h]
      ext <;> simp only [add_assoc]

end ScoringLemmas

/-- The scores over the reals, as sums over the set of the words visited. -/
theorem scoreWords_real (mc : mailCategorizer) (order : List String) (hnd : order.Nodup) :
    scoreWords Real.log mc order =
      (Finset.sum (order.toFinset.filter
          (fun w => mc.hamBow.get w ≠ 0 ∧ mc.spamBow.get w ≠ 0))
          (fun w => Real.log ((mc.hamBow.get w : ℝ) / (mc.totalHamCount : ℝ)))
        + Real.log ((mc.totalHamCount : ℝ) / (mc.totalCount : ℝ))
        - Finset.sum (order.toFinset.filter
          (fun w => mc.hamBow.get w ≠ 0 ∧ mc.spamBow.get w ≠ 0))
          (fun w => Real.log ((wrapInt (mc.hamBow.get w + mc.spamBow.get w) : ℝ) /
            (mc.totalCount : ℝ))),
       Finset.sum (order.toFinset.filter
          (fun w => mc.hamBow.get w ≠ 0 ∧ mc.spamBow.get w ≠ 0))
          (fun w => Real.log ((mc.spamBow.get w : ℝ) / (mc.totalSpamCount : ℝ)))
        + Real.log ((mc.totalSpamCount : ℝ) / (mc.totalCount : ℝ))
        - Finset.sum (order.toFinset.filter
          (fun w => mc.hamBow.get w ≠ 0 ∧ mc.spamBow.get w ≠ 0))
          (fun w => Real.log ((wrapInt (mc.hamBow.get w + mc.spamBow.get w) : ℝ) /
            (mc.totalCount : ℝ)))) := by
  have hnd2 : (order.filter
      (fun w => decide (mc.hamBow.get w ≠ 0 ∧ mc.spamBow.get w ≠ 0))).Nodup :=
    hnd.filter _
  have hset : (order.filter
      (fun w => decide (mc.hamBow.get w ≠ 0 ∧ mc.spamBow.get w ≠ 0))).toFinset =
      order.toFinset.filter (fun w => mc.hamBow.get w ≠ 0 ∧ mc.spamBow.get w ≠ 0) := by
    ext x
    simp
  unfold scoreWords
  simp only [foldl_scoreWord, zero_add]
  rw [← hset, List.sum_toFinset _ hnd2, List.sum_toFinset _ hnd2, List.sum_toFinset _ hnd2]

/-- The scores over the reals depend only on the set of the words visited. -/
theorem scoreWords_real_congr (mc : mailCategorizer) (o1 o2 : List String)
    (h1 : o1.Nodup) (h2 : o2.Nodup)
    (h : o1.toFinset.filter (fun w => mc.hamBow.get w ≠ 0 ∧ mc.spamBow.get w ≠ 0) =
      o2.toFinset.filter (fun w => mc.hamBow.get w ≠ 0 ∧ mc.spamBow.get w ≠ 0)) :
    scoreWords Real.log mc o1 = scoreWords Real.log mc o2 := by
  rw [scoreWords_real mc o1 h1, scoreWords_real mc o2 h2, h]

theorem nodup_of_perm_keys {order : List String} {d : Bow} (h : order.Perm d.keys) :
    order.Nodup :=
  h.symm.nodup_iff.mp d.keys_nodup

theorem toFinset_of_perm_keys {order : List String} {d : Bow} (h : order.Perm d.keys) :
    order.toFinset = d.keys.toFinset :=
  List.toFinset_eq_of_perm _ _ h

/-! ## The scores as sums over the informative words -/

/-- C1: for a classifier state with `H > 0`, `S > 0` and `T = H + S`, and a document `d`
whose keys the loop visits in any order, `categorizeMail` computes, over the reals,
`hamScore = (Σ ln(hamBow[w]/H)) + ln(H/T) - (Σ ln((hamBow[w]+spamBow[w])/T))` and
`spamScore = (Σ ln(spamBow[w]/S)) + ln(S/T) - (Σ ln((hamBow[w]+spamBow[w])/T))`, the sums
ranging over the distinct words of `d` with a nonzero count in both models.  The first part
reads `hamBow[w]+spamBow[w]` as the program's `int` addition; the second part reads it as the
sum of the two integers, which is the same whenever that sum is an `int`. -/
theorem categorizeMail_scores_eq_sums (mc : mailCategorizer) (d : Bow) (order : List String)
    (_hH : 0 < mc.totalHamCount) (_hS : 0 < mc.totalSpamCount)
    (hT : mc.totalCount = mc.totalHamCount + mc.totalSpamCount)
    (hperm : order.Perm d.keys) :
    scoreWords Real.log mc order =
      (Finset.sum (informative mc d)
          (fun w => Real.log ((mc.hamBow.get w : ℝ) / (mc.totalHamCount : ℝ)))
        + Real.log ((mc.totalHamCount : ℝ) / ((mc.totalHamCount + mc.totalSpamCount : Int) : ℝ))
        - Finset.sum (informative mc d)
          (fun w => Real.log ((wrapInt (mc.hamBow.get w + mc.spamBow.get w) : ℝ) /
            ((mc.totalHamCount + mc.totalSpamCount : Int) : ℝ))),
       Finset.sum (informative mc d)
          (fun w => Real.log ((mc.spamBow.get w : ℝ) / (mc.totalSpamCount : ℝ)))
        + Real.log ((mc.totalSpamCount : ℝ) / ((mc.totalHamCount + mc.totalSpamCount : Int) : ℝ))
        - Finset.sum (informative mc d)
          (fun w => Real.log ((wrapInt (mc.hamBow.get w + mc.spamBow.get w) : ℝ) /
            ((mc.totalHamCount + mc.totalSpamCount : Int) : ℝ))))
    ∧ ((∀ w ∈ informative mc d, isGoInt (mc.hamBow.get w + mc.spamBow.get w)) →
      scoreWords Real.log mc order =
      (Finset.sum (informative mc d)
          (fun w => Real.log ((mc.hamBow.get w : ℝ) / (mc.totalHamCount : ℝ)))
        + Real.log ((mc.totalHamCount : ℝ) / ((mc.totalHamCount + mc.totalSpamCount : Int) : ℝ))
        - Finset.sum (informative mc d)
          (fun w => Real.log (((mc.hamBow.get w + mc.spamBow.get w : Int) : ℝ) /
            ((mc.totalHamCount + mc.totalSpamCount : Int) : ℝ))),
       Finset.sum (informative mc d)
          (fun w => Real.log ((mc.spamBow.get w : ℝ) / (mc.totalSpamCount : ℝ)))
        + Real.log ((mc.totalSpamCount : ℝ) / ((mc.totalHamCount + mc.totalSpamCount : Int) : ℝ))
        - Finset.sum (informative mc d)
          (fun w => Real.log (((mc.hamBow.get w + mc.spamBow.get w : Int) : ℝ) /
            ((mc.totalHamCount + mc.totalSpamCount : Int) : ℝ))))) := by
  have hmain := scoreWords_real mc order (nodup_of_perm_keys hperm)
  rw [toFinset_of_perm_keys hperm, hT] at hmain
  refine ⟨hmain, fun hfit => ?_⟩
  rw [hmain]
  have hsum : Finset.sum (informative mc d)
      (fun w => Real.log ((wrapInt (mc.hamBow.get w + mc.spamBow.get w) : ℝ) /
        ((mc.totalHamCount + mc.totalSpamCount : Int) : ℝ))) =
      Finset.sum (informative mc d)
      (fun w => Real.log (((mc.hamBow.get w + mc.spamBow.get w : Int) : ℝ) /
        ((mc.totalHamCount + mc.totalSpamCount : Int) : ℝ))) := by
    apply Finset.sum_congr rfl
    intro w hw
    rw [wrapInt_of_isGoInt (hfit w hw)]
  unfold informative at hsum ⊢
  rw [hsum]

theorem categorizeMail_scores_eq_sums_witness :
    (0 < exampleCategorizer.totalHamCount ∧ 0 < exampleCategorizer.totalSpamCount ∧
      exampleCategorizer.totalCount =
        exampleCategorizer.totalHamCount + exampleCategorizer.totalSpamCount ∧
      ["free"].Perm freeMail.keys) ∧
    scoreWords Real.log exampleCategorizer ["free"] =
      (Finset.sum (informative exampleCategorizer freeMail)
          (fun w => Real.log ((exampleCategorizer.hamBow.get w : ℝ) /
            (exampleCategorizer.totalHamCount : ℝ)))
        + Real.log ((exampleCategorizer.totalHamCount : ℝ) /
            ((exampleCategorizer.totalHamCount + exampleCategorizer.totalSpamCount : Int) : ℝ))
        - Finset.sum (informative exampleCategorizer freeMail)
          (fun w => Real.log ((wrapInt (exampleCategorizer.hamBow.get w +
            exampleCategorizer.spamBow.get w) : ℝ) /
            ((exampleCategorizer.totalHamCount + exampleCategorizer.totalSpamCount : Int) : ℝ))),
       Finset.sum (informative exampleCategorizer freeMail)
          (fun w => Real.log ((exampleCategorizer.spamBow.get w : ℝ) /
            (exampleCategorizer.totalSpamCount : ℝ)))
        + Real.log ((exampleCategorizer.totalSpamCount : ℝ) /
            ((exampleCategorizer.totalHamCount + exampleCategorizer.totalSpamCount : Int) : ℝ))
        - Finset.sum (informative exampleCategorizer freeMail)
          (fun w => Real.log ((wrapInt (exampleCategorizer.hamBow.get w +
            exampleCategorizer.spamBow.get w) : ℝ) /
            ((exampleCategorizer.totalHamCount + exampleCategorizer.totalSpamCount : Int) : ℝ)))) :=
  ⟨⟨by decide, by decide, by decide, by decide⟩,
    (categorizeMail_scores_eq_sums exampleCategorizer freeMail ["free"]
      (by decide) (by decide) (by decide) (by decide)).1⟩

/-! ## Words that are skipped, and multiplicities -/

theorem informative_filter_insert (mc : mailCategorizer) (d : Bow) (w : String) (c : Int)
    (hw : mc.hamBow.get w = 0 ∨ mc.spamBow.get w = 0) :
    (AList.insert w c d).keys.toFinset.filter
        (fun x => mc.hamBow.get x ≠ 0 ∧ mc.spamBow.get x ≠ 0) =
      d.keys.toFinset.filter (fun x => mc.hamBow.get x ≠ 0 ∧ mc.spamBow.get x ≠ 0) := by
  ext x
  simp only [Finset.mem_filter, List.mem_toFinset, ← AList.mem_keys, AList.mem_insert]
  constructor
  · rintro ⟨hx | hx, h⟩
    · subst hx
      tauto
    · exact ⟨hx, h⟩
  · rintro ⟨hx, h⟩
    exact ⟨Or.inr hx, h⟩

theorem informative_filter_erase (mc : mailCategorizer) (d : Bow) (w : String)
    (hw : mc.hamBow.get w = 0 ∨ mc.spamBow.get w = 0) :
    (AList.erase w d).keys.toFinset.filter
        (fun x => mc.hamBow.get x ≠ 0 ∧ mc.spamBow.get x ≠ 0) =
      d.keys.toFinset.filter (fun x => mc.hamBow.get x ≠ 0 ∧ mc.spamBow.get x ≠ 0) := by
  ext x
  simp only [Finset.mem_filter, List.mem_toFinset, ← AList.mem_keys, AList.mem_erase]
  constructor
  · rintro ⟨⟨_, hx⟩, h⟩
    exact ⟨hx, h⟩
  · rintro ⟨hx, h⟩
    refine ⟨⟨?_, hx⟩, h⟩
    rintro rfl
    tauto

/-- Whatever the arithmetic, removing a skipped word from the words visited, the others
being visited in the same order, leaves the scores as they are. -/
theorem scoreWords_filter_skipped {F : Type} [Zero F] [Add F] [Sub F] [Div F] [IntCast F]
    (log : F → F) (mc : mailCategorizer) (w : String) (order : List String)
    (hw : mc.hamBow.get w = 0 ∨ mc.spamBow.get w = 0) :
    scoreWords log mc (order.filter (fun x => decide (x ≠ w))) = scoreWords log mc order := by
  have hfold : ∀ acc : Sums F,
      (order.filter (fun x => decide (x ≠ w))).foldl (scoreWord log mc) acc =
        order.foldl (scoreWord log mc) acc := by
    induction order with
    | nil => intro acc; rfl
    | cons x xs ih =>
      intro acc
      by_cases hx : x = w
      · subst hx
        have hskip : scoreWord log mc acc x = acc := by
          unfold scoreWord
          rw [if_pos hw]
        simp only [List.filter_cons, ne_eq, not_true_eq_false, decide_False,
          Bool.false_eq_true, if_false, List.foldl_cons, hskip]
        exact ih acc
      · simp only [List.filter_cons, ne_eq, hx, not_false_eq_true, decide_True, if_true,
          List.foldl_cons]
        exact ih _
  unfold scoreWords
  rw [hfold]

theorem filter_ne_perm_keys_erase (d : Bow) (w : String) (c : Int) (o1 : List String)
    (h1 : o1.Perm (AList.insert w c d).keys) :
    (o1.filter (fun x => decide (x ≠ w))).Perm (AList.erase w d).keys := by
  have hp := h1.filter (fun x => decide (x ≠ w))
  rw [AList.keys_insert] at hp
  rw [AList.keys_erase]
  have hrest : (d.keys.erase w).filter (fun x => decide (x ≠ w)) = d.keys.erase w := by
    rw [List.filter_eq_self]
    intro x hx
    have := (d.keys_nodup.mem_erase_iff).mp hx
    simpa using this.1
  have hw : (w :: d.keys.erase w).filter (fun x => decide (x ≠ w)) = d.keys.erase w := by
    rw [List.filter_cons_of_neg (by simp), hrest]
  rw [hw] at hp
  exact hp

/-- C2, amended: a word `w` with a zero count in the ham model or in the spam model changes
none of the three running sums, in any arithmetic; the scores of `d` with `w` added equal,
over the reals, the scores of `d` and the scores of `d` without `w`, in whatever order the
words are visited; and in any arithmetic, float64 included, they equal the scores of `d`
without `w` when the other words are visited in the same order. -/
theorem scoreWords_skipped_word (mc : mailCategorizer) (d : Bow) (w : String) (c : Int)
    (o1 o2 o3 : List String)
    (hw : mc.hamBow.get w = 0 ∨ mc.spamBow.get w = 0)
    (h1 : o1.Perm (AList.insert w c d).keys) (h2 : o2.Perm (AList.erase w d).keys)
    (h3 : o3.Perm d.keys) :
    (∀ acc : Sums ℝ, scoreWord Real.log mc acc w = acc) ∧
    scoreWords Real.log mc o1 = scoreWords Real.log mc o2 ∧
    scoreWords Real.log mc o1 = scoreWords Real.log mc o3 ∧
    (∀ (F : Type) [Zero F] [Add F] [Sub F] [Div F] [IntCast F] (log : F → F),
      (∀ acc : Sums F, scoreWord log mc acc w = acc) ∧
      (o1.filter (fun x => decide (x ≠ w))).Perm (AList.erase w d).keys ∧
      scoreWords log mc o1 = scoreWords log mc (o1.filter (fun x => decide (x ≠ w)))) := by
  refine ⟨fun acc => scoreWord_skip Real.log mc acc w hw, ?_, ?_, ?_⟩
  · apply scoreWords_real_congr mc o1 o2 (nodup_of_perm_keys h1) (nodup_of_perm_keys h2)
    rw [toFinset_of_perm_keys h1, toFinset_of_perm_keys h2,
      informative_filter_insert mc d w c hw, informative_filter_erase mc d w hw]
  · apply scoreWords_real_congr mc o1 o3 (nodup_of_perm_keys h1) (nodup_of_perm_keys h3)
    rw [toFinset_of_perm_keys h1, toFinset_of_perm_keys h3,
      informative_filter_insert mc d w c hw]
  · intro F _ _ _ _ _ log
    refine ⟨?_, filter_ne_perm_keys_erase d w c o1 h1,
      (scoreWords_filter_skipped log mc w o1 hw).symm⟩
    intro acc
    unfold scoreWord
    rw [if_pos hw]

theorem scoreWords_skipped_word_witness :
    (exampleCategorizer.hamBow.get "win" = 0 ∨ exampleCategorizer.spamBow.get "win" = 0) ∧
    scoreWords Real.log exampleCategorizer ["win", "free"] =
      scoreWords Real.log exampleCategorizer ["free"] :=
  ⟨by decide,
    (scoreWords_skipped_word exampleCategorizer freeMail "win" 3 ["win", "free"] ["free"]
      ["free"] (by decide) (by decide) (by decide) (by decide)).2.1⟩

theorem scoreWords_of_same_keys (mc : mailCategorizer) (d1 d2 : Bow) (o1 o2 : List String)
    (hkeys : ∀ w, w ∈ d1 ↔ w ∈ d2) (h1 : o1.Perm d1.keys) (h2 : o2.Perm d2.keys) :
    scoreWords Real.log mc o1 = scoreWords Real.log mc o2 := by
  apply scoreWords_real_congr mc o1 o2 (nodup_of_perm_keys h1) (nodup_of_perm_keys h2)
  rw [toFinset_of_perm_keys h1, toFinset_of_perm_keys h2]
  have hk : d1.keys.toFinset = d2.keys.toFinset := by
    ext x
    simp only [List.mem_toFinset, ← AList.mem_keys]
    exact hkeys x
  rw [hk]

/-- C3, amended: two documents with the same set of words get the same scores over the
reals, whatever the occurrence counts and the orders in which the words are visited, and the
words of a token sequence get the same scores as that sequence with the duplicates removed;
in any arithmetic, float64 included, two files whose words are visited in the same order
get the same result from `categorizeMail`, whatever the occurrence counts. -/
theorem scoreWords_ignores_multiplicity (mc : mailCategorizer) :
    (∀ (d1 d2 : Bow) (o1 o2 : List String), (∀ w, w ∈ d1 ↔ w ∈ d2) →
      o1.Perm d1.keys → o2.Perm d2.keys →
      scoreWords Real.log mc o1 = scoreWords Real.log mc o2) ∧
    (∀ (ws : List String) (o1 o2 : List String),
      o1.Perm (addWordsToBow ∅ ws).keys → o2.Perm (addWordsToBow ∅ ws.dedup).keys →
      scoreWords Real.log mc o1 = scoreWords Real.log mc o2) ∧
    (∀ (F : Type) [Zero F] [Add F] [Sub F] [Div F] [IntCast F] (log : F → F) (rt : Runtime)
      (path1 path2 data1 data2 : String),
      rt.readFile path1 = Except.ok data1 → rt.readFile path2 = Except.ok data2 →
      rt.rangeOrder (addWordsToBow ∅ (tokenizeFile rt data1)) =
        rt.rangeOrder (addWordsToBow ∅ (tokenizeFile rt data2)) →
      categorizeMail rt log mc path1 = categorizeMail rt log mc path2) := by
  refine ⟨fun d1 d2 o1 o2 hk h1 h2 => scoreWords_of_same_keys mc d1 d2 o1 o2 hk h1 h2, ?_, ?_⟩
  · intro ws o1 o2 h1 h2
    apply scoreWords_of_same_keys mc _ _ o1 o2 _ h1 h2
    intro w
    rw [mem_addWordsToBow, mem_addWordsToBow, List.mem_dedup]
  · intro F _ _ _ _ _ log rt path1 path2 data1 data2 hr1 hr2 hsame
    unfold categorizeMail addFileToBow
    simp only [hr1, hr2, hsame]

theorem scoreWords_ignores_multiplicity_witness :
    scoreWords Real.log exampleCategorizer
        (addWordsToBow ∅ ["free", "win", "free", "free"]).keys =
      scoreWords Real.log exampleCategorizer (addWordsToBow ∅ ["win", "free"]).keys ∧
    scoreWords Real.log exampleCategorizer
        (addWordsToBow ∅ ["free", "win", "free", "free"]).keys =
      scoreWords Real.log exampleCategorizer
        (addWordsToBow ∅ (["free", "win", "free", "free"].dedup)).keys :=
  ⟨(scoreWords_ignores_multiplicity exampleCategorizer).1
      (addWordsToBow ∅ ["free", "win", "free", "free"]) (addWordsToBow ∅ ["win", "free"])
      _ _ (by intro w; rw [mem_addWordsToBow, mem_addWordsToBow]; simp; tauto)
      (List.Perm.refl _) (List.Perm.refl _),
   (scoreWords_ignores_multiplicity exampleCategorizer).2.1
      ["free", "win", "free", "free"] _ _ (List.Perm.refl _) (List.Perm.refl _)⟩

/-! ## Documents without informative words -/

/-- When every word visited is skipped the running sums stay as they were, whatever the
arithmetic. -/
theorem foldl_scoreWord_all_skipped {F : Type} [Zero F] [Add F] [Div F] [IntCast F]
    (log : F → F) (mc : mailCategorizer) (order : List String) (acc : Sums F)
    (h : ∀ w ∈ order, ¬ (mc.hamBow.get w ≠ 0 ∧ mc.spamBow.get w ≠ 0)) :
    order.foldl (scoreWord log mc) acc = acc := by
  induction order with
  | nil => rfl
  | cons w ws ih =>
    have hw : mc.hamBow.get w = 0 ∨ mc.spamBow.get w = 0 := by
      have := h w (List.mem_cons_self w ws)
      tauto
    rw [List.foldl_cons]
    unfold scoreWord
    rw [if_pos hw]
    exact ih (fun x hx => h x (List.mem_cons_of_mem w hx))

theorem scoreWords_all_skipped (mc : mailCategorizer) (order : List String)
    (h : ∀ w ∈ order, ¬ (mc.hamBow.get w ≠ 0 ∧ mc.spamBow.get w ≠ 0)) :
    scoreWords Real.log mc order =
      (Real.log ((mc.totalHamCount : ℝ) / (mc.totalCount : ℝ)),
       Real.log ((mc.totalSpamCount : ℝ) / (mc.totalCount : ℝ))) := by
  unfold scoreWords
  simp only [foldl_scoreWord_all_skipped Real.log mc order _ h, zero_add, sub_zero]

/-- C4: for a classifier state with `H > 0` and `S > 0`, `T` being its `totalCount`, a
document whose word-count mapping is empty or has no word with a nonzero count in both
models leaves the three running sums at zero in any arithmetic, and gets
`hamScore = ln(H/T)` and `spamScore = ln(S/T)`; and when the file of such a document is
read, `categorizeMail` returns these two scores and a nil error. -/
theorem categorizeMail_priors_only (rt : Runtime) (mc : mailCategorizer)
    (_hH : 0 < mc.totalHamCount) (_hS : 0 < mc.totalSpamCount)
    (hrange : ∀ b : Bow, (rt.rangeOrder b).Perm b.keys) :
    (∀ (d : Bow) (order : List String), order.Perm d.keys →
      (∀ w ∈ d.keys, ¬ (mc.hamBow.get w ≠ 0 ∧ mc.spamBow.get w ≠ 0)) →
      scoreWords Real.log mc order =
        (Real.log ((mc.totalHamCount : ℝ) / (mc.totalCount : ℝ)),
         Real.log ((mc.totalSpamCount : ℝ) / (mc.totalCount : ℝ)))) ∧
    (∀ (path data : String), rt.readFile path = Except.ok data →
      (∀ w ∈ (addWordsToBow ∅ (tokenizeFile rt data)).keys,
        ¬ (mc.hamBow.get w ≠ 0 ∧ mc.spamBow.get w ≠ 0)) →
      categorizeMail rt Real.log mc path =
        (Real.log ((mc.totalHamCount : ℝ) / (mc.totalCount : ℝ)),
         Real.log ((mc.totalSpamCount : ℝ) / (mc.totalCount : ℝ)),
         none)) ∧
    (∀ (F : Type) [Zero F] [Add F] [Sub F] [Div F] [IntCast F] (log : F → F) (d : Bow)
      (order : List String), order.Perm d.keys →
      (∀ w ∈ d.keys, ¬ (mc.hamBow.get w ≠ 0 ∧ mc.spamBow.get w ≠ 0)) →
      order.foldl (scoreWord log mc) { pDHam := 0, pDSpam := 0, pD := 0 } =
        { pDHam := 0, pDSpam := 0, pD := 0 } ∧
      scoreWords log mc order =
        (0 + log ((mc.totalHamCount : F) / (mc.totalCount : F)) - 0,
         0 + log ((mc.totalSpamCount : F) / (mc.totalCount : F)) - 0)) := by
  have key : ∀ (d : Bow) (order : List String), order.Perm d.keys →
      (∀ w ∈ d.keys, ¬ (mc.hamBow.get w ≠ 0 ∧ mc.spamBow.get w ≠ 0)) →
      scoreWords Real.log mc order =
        (Real.log ((mc.totalHamCount : ℝ) / (mc.totalCount : ℝ)),
         Real.log ((mc.totalSpamCount : ℝ) / (mc.totalCount : ℝ))) := by
    intro d order hperm hnone
    rw [scoreWords_all_skipped mc order (fun w hw => hnone w (hperm.mem_iff.mp hw))]
  refine ⟨key, ?_, ?_⟩
  · intro path data hread hnone
    unfold categorizeMail addFileToBow
    simp only [hread]
    rw [key _ _ (hrange _) hnone]
  · intro F _ _ _ _ _ log d order hperm hnone
    have hfold := foldl_scoreWord_all_skipped log mc order
      { pDHam := 0, pDSpam := 0, pD := 0 } (fun w hw => hnone w (hperm.mem_iff.mp hw))
    refine ⟨hfold, ?_⟩
    unfold scoreWords
    simp only [hfold]

theorem categorizeMail_priors_only_witness :
    (0 < exampleCategorizer.totalHamCount ∧ 0 < exampleCategorizer.totalSpamCount) ∧
    categorizeMail exampleRuntime Real.log exampleCategorizer "mail.txt" =
      (Real.log ((exampleCategorizer.totalHamCount : ℝ) /
          (exampleCategorizer.totalCount : ℝ)),
       Real.log ((exampleCategorizer.totalSpamCount : ℝ) /
          (exampleCategorizer.totalCount : ℝ)),
       none) :=
  ⟨⟨by decide, by decide⟩,
    (categorizeMail_priors_only exampleRuntime exampleCategorizer (by decide) (by decide)
      (fun b => List.Perm.refl _)).2.1 "mail.txt" "meeting, 10:30!" rfl (by decide)⟩

/-! ## The end-to-end scenarios -/

theorem exampleCategorizer_free :
    scoreWords Real.log exampleCategorizer ["free"] =
      (Real.log (1 / 6) + Real.log (6 / 22) - Real.log (10 / 22),
       Real.log (9 / 16) + Real.log (16 / 22) - Real.log (10 / 22)) := by
  have h1 : exampleCategorizer.hamBow.get "free" = 1 := by decide
  have h2 : exampleCategorizer.spamBow.get "free" = 9 := by decide
  have h3 : exampleCategorizer.totalHamCount = 6 := by decide
  have h4 : exampleCategorizer.totalSpamCount = 16 := by decide
  have h5 : exampleCategorizer.totalCount = 22 := by decide
  have h6 : wrapInt (1 + 9) = 10 := by decide
  simp only [scoreWords, scoreWord, List.foldl_cons, List.foldl_nil, h1, h2, h3, h4, h5, h6]
  norm_num

theorem free_scores_lt :
    Real.log (1 / 6) + Real.log (6 / 22) - Real.log (10 / 22) <
      Real.log (9 / 16) + Real.log (16 / 22) - Real.log (10 / 22) := by
  have hl : Real.log (1 / 6) + Real.log (6 / 22) = Real.log (1 / 22) := by
    rw [← Real.log_mul (by norm_num) (by norm_num)]
    norm_num
  have hr : Real.log (9 / 16) + Real.log (16 / 22) = Real.log (9 / 22) := by
    rw [← Real.log_mul (by norm_num) (by norm_num)]
    norm_num
  rw [hl, hr]
  have : Real.log (1 / 22) < Real.log (9 / 22) :=
    Real.log_lt_log (by norm_num) (by norm_num)
  linarith

/-- C5: with ham model `{"free":1, "meeting":5}`, spam model `{"free":9, "win":7}`,
`H = 6`, `S = 16` (so `T = 22`), a document whose only word is "free" gets
`hamScore = ln(1/6) + ln(6/22) - ln(10/22)` and `spamScore = ln(9/16) + ln(16/22) - ln(10/22)`,
`spamScore > hamScore`, and `categorizeMails` adds one to the spam tally and leaves the ham
tally as it is. -/
theorem free_mail_counted_spam (d : Bow) (order : List String) (tally : Int × Int)
    (hd : d.keys = ["free"]) (hperm : order.Perm d.keys) :
    exampleCategorizer.totalCount = 22 ∧
    scoreWords Real.log exampleCategorizer order =
      (Real.log (1 / 6) + Real.log (6 / 22) - Real.log (10 / 22),
       Real.log (9 / 16) + Real.log (16 / 22) - Real.log (10 / 22)) ∧
    (scoreWords Real.log exampleCategorizer order).1 <
      (scoreWords Real.log exampleCategorizer order).2 ∧
    countMail tally (scoreWords Real.log exampleCategorizer order).1
      (scoreWords Real.log exampleCategorizer order).2 = (tally.1, wrapInt (tally.2 + 1)) := by
  rw [hd, List.perm_singleton] at hperm
  subst hperm
  have hlt : (scoreWords Real.log exampleCategorizer ["free"]).1 <
      (scoreWords Real.log exampleCategorizer ["free"]).2 := by
    rw [exampleCategorizer_free]
    exact free_scores_lt
  refine ⟨by decide, exampleCategorizer_free, hlt, ?_⟩
  unfold countMail
  rw [if_neg (not_lt.mpr hlt.le)]

theorem free_mail_counted_spam_witness :
    (freeMail.keys = ["free"] ∧ ["free"].Perm freeMail.keys) ∧
    countMail (0, 0) (scoreWords Real.log exampleCategorizer ["free"]).1
      (scoreWords Real.log exampleCategorizer ["free"]).2 = (0, 1) :=
  ⟨⟨by decide, by decide⟩,
    (free_mail_counted_spam freeMail ["free"] (0, 0) (by decide) (by decide)).2.2.2⟩

/-- C6, amended: over the reals, for a classifier state with `H > 0`, `S > 0` and
`T = H + S`, and a document with no word that has a nonzero count in both models, the ham
score exceeds the spam score exactly when `H > S`: the document is counted as ham if `H > S`
and as spam otherwise. -/
theorem prior_decides_without_informative_words (mc : mailCategorizer) (d : Bow)
    (order : List String) (tally : Int × Int)
    (hH : 0 < mc.totalHamCount) (hS : 0 < mc.totalSpamCount)
    (hT : mc.totalCount = mc.totalHamCount + mc.totalSpamCount)
    (hperm : order.Perm d.keys)
    (hnone : ∀ w ∈ d.keys, ¬ (mc.hamBow.get w ≠ 0 ∧ mc.spamBow.get w ≠ 0)) :
    ((scoreWords Real.log mc order).2 < (scoreWords Real.log mc order).1 ↔
      mc.totalSpamCount < mc.totalHamCount) ∧
    countMail tally (scoreWords Real.log mc order).1 (scoreWords Real.log mc order).2 =
      (if mc.totalSpamCount < mc.totalHamCount then (wrapInt (tally.1 + 1), tally.2)
       else (tally.1, wrapInt (tally.2 + 1))) := by
  have hscore := scoreWords_all_skipped mc order (fun w hw => hnone w (hperm.mem_iff.mp hw))
  have hHr : (0 : ℝ) < (mc.totalHamCount : ℝ) := by exact_mod_cast hH
  have hSr : (0 : ℝ) < (mc.totalSpamCount : ℝ) := by exact_mod_cast hS
  have hTr : (0 : ℝ) < (mc.totalCount : ℝ) := by
    rw [hT]
    push_cast
    linarith
  have hiff : (scoreWords Real.log mc order).2 < (scoreWords Real.log mc order).1 ↔
      mc.totalSpamCount < mc.totalHamCount := by
    rw [hscore]
    show Real.log _ < Real.log _ ↔ _
    rw [Real.log_lt_log_iff (div_pos hSr hTr) (div_pos hHr hTr), div_lt_div_iff_of_pos_right hTr]
    exact Int.cast_lt
  refine ⟨hiff, ?_⟩
  unfold countMail
  by_cases h : mc.totalSpamCount < mc.totalHamCount
  · rw [if_pos h, if_pos (hiff.mpr h)]
  · rw [if_neg h, if_neg (fun hh => h (hiff.mp hh))]

theorem prior_decides_without_informative_words_witness :
    (0 < exampleCategorizer.totalHamCount ∧ 0 < exampleCategorizer.totalSpamCount ∧
      exampleCategorizer.totalCount =
        exampleCategorizer.totalHamCount + exampleCategorizer.totalSpamCount ∧
      ["meeting"].Perm meetingMail.keys ∧
      ∀ w ∈ meetingMail.keys, ¬ (exampleCategorizer.hamBow.get w ≠ 0 ∧
        exampleCategorizer.spamBow.get w ≠ 0)) ∧
    countMail (0, 0) (scoreWords Real.log exampleCategorizer ["meeting"]).1
      (scoreWords Real.log exampleCategorizer ["meeting"]).2 = (0, 1) :=
  ⟨⟨by decide, by decide, by decide, by decide, by decide⟩,
    (prior_decides_without_informative_words exampleCategorizer meetingMail ["meeting"] (0, 0)
      (by decide) (by decide) (by decide) (by decide) (by decide)).2⟩

/-! ## The batch driver -/

theorem categorizeMail_of_read (rt : Runtime) (mc : mailCategorizer) (path data : String)
    (h : rt.readFile path = Except.ok data) :
    (categorizeMail rt Real.log mc path).2.2 = none := by
  unfold categorizeMail addFileToBow
  simp only [h]

/-- The callback on a directory leaves the tallies as they are. -/
theorem categorizeMailsVisit_dir (rt : Runtime) (mc : mailCategorizer) (tally : Int × Int)
    (v : Visit) (d : DirEntry) (hd : v.d = some d) (hdir : d.isDir = true) :
    categorizeMailsVisit rt Real.log mc tally v = Except.ok tally := by
  unfold categorizeMailsVisit
  simp only [hd, hdir, if_true]

/-- The callback on a file that can be read counts the document once. -/
theorem categorizeMailsVisit_file (rt : Runtime) (mc : mailCategorizer) (tally : Int × Int)
    (v : Visit) (d : DirEntry) (data : String) (hd : v.d = some d) (hdir : d.isDir = false)
    (h : rt.readFile v.path = Except.ok data) :
    categorizeMailsVisit rt Real.log mc tally v =
      Except.ok (countMail tally (categorizeMail rt Real.log mc v.path).1
        (categorizeMail rt Real.log mc v.path).2.1) := by
  have hnone := categorizeMail_of_read rt mc v.path data h
  unfold categorizeMailsVisit
  simp only [hd, hdir]
  rcases hr : categorizeMail rt Real.log mc v.path with ⟨ham, spam, e⟩
  rw [hr] at hnone
  simp only at hnone
  subst hnone
  simp

theorem countMail_eq (tally : Int × Int) (ham spam : ℝ) :
    countMail tally ham spam =
      (if spam < ham then (wrapInt (tally.1 + 1), tally.2)
       else (tally.1, wrapInt (tally.2 + 1))) := rfl

/-- The tallies after a walk in which every entry is non-nil and every file can be read. -/
theorem walkVisits_ok (rt : Runtime) (mc : mailCategorizer) (vs : List Visit)
    (tally : Int × Int) (h1 : isGoInt tally.1) (h2 : isGoInt tally.2)
    (hentries : ∀ v ∈ vs, v.d ≠ none)
    (hreads : ∀ v ∈ vs, v.isFile = true → ∃ data, rt.readFile v.path = Except.ok data) :
    walkVisits rt Real.log mc tally vs =
      Except.ok
        (wrapInt (tally.1 + (((vs.filter Visit.isFile).countP
            (fun v => countsAsHam rt Real.log mc v.path) : Nat) : Int)),
         wrapInt (tally.2 + (((vs.filter Visit.isFile).countP
            (fun v => !countsAsHam rt Real.log mc v.path) : Nat) : Int))) := by
  induction vs generalizing tally with
  | nil =>
    simp [walkVisits, wrapInt_of_isGoInt h1, wrapInt_of_isGoInt h2]
  | cons v vs ih =>
    have hentries2 : ∀ x ∈ vs, x.d ≠ none := fun x hx => hentries x (List.mem_cons_of_mem v hx)
    have hreads2 : ∀ x ∈ vs, x.isFile = true → ∃ data, rt.readFile x.path = Except.ok data :=
      fun x hx => hreads x (List.mem_cons_of_mem v hx)
    have hv := hentries v (List.mem_cons_self v vs)
    obtain ⟨d, hd0⟩ := Option.ne_none_iff_exists.mp hv
    have hd : v.d = some d := hd0.symm
    unfold walkVisits
    by_cases hdir : d.isDir = true
    · have hfile : v.isFile = false := by simp [Visit.isFile, hd, hdir]
      rw [categorizeMailsVisit_dir rt mc tally v d hd hdir]
      simp only
      rw [ih tally h1 h2 hentries2 hreads2]
      simp [List.filter_cons, hfile]
    · have hdir2 : d.isDir = false := by simpa using hdir
      have hfile : v.isFile = true := by simp [Visit.isFile, hd, hdir2]
      obtain ⟨data, hdata⟩ := hreads v (List.mem_cons_self v vs) hfile
      rw [categorizeMailsVisit_file rt mc tally v d data hd hdir2 hdata]
      simp only
      rw [countMail_eq]
      by_cases hham : (categorizeMail rt Real.log mc v.path).2.1 <
          (categorizeMail rt Real.log mc v.path).1
      · have hc : countsAsHam rt Real.log mc v.path = true := by
          simp [countsAsHam, hham]
        rw [if_pos hham,
          ih (wrapInt (tally.1 + 1), tally.2) (isGoInt_wrapInt _) h2 hentries2 hreads2]
        simp only [List.filter_cons, hfile, if_true, List.countP_cons, hc, Bool.not_true,
          Bool.false_eq_true, if_false, add_zero, wrapInt_wrapInt_add]
        congr 3
        push_cast
        ring
      · have hc : countsAsHam rt Real.log mc v.path = false := by
          simp only [countsAsHam, decide_eq_false_iff_not]
          exact hham
        rw [if_neg hham,
          ih (tally.1, wrapInt (tally.2 + 1)) h1 (isGoInt_wrapInt _) hentries2 hreads2]
        simp only [List.filter_cons, hfile, if_true, List.countP_cons, hc, Bool.not_false,
          Bool.false_eq_true, if_false, add_zero, wrapInt_wrapInt_add]
        congr 3
        push_cast
        ring

/-- C7: in `categorizeMails` the callback, run on a file that is read, adds one to the ham
tally exactly when `hamScore > spamScore` and otherwise adds one to the spam tally, so a
document whose two scores are equal is counted as spam; and after a walk in which every
entry is non-nil and every file is read, the function returns, with a nil error, the number
of files with `hamScore > spamScore` and the number of the other files, which add up to the
number of files. -/
theorem categorizeMails_tallies (rt : Runtime) (mc : mailCategorizer) (mailType : MailType)
    (hentries : ∀ v ∈ rt.walkDir ("./enron6/" ++ mailType ++ "/"), v.d ≠ none)
    (hreads : ∀ v ∈ rt.walkDir ("./enron6/" ++ mailType ++ "/"), v.isFile = true →
      ∃ data, rt.readFile v.path = Except.ok data)
    (hlen : ((walkedFiles rt mailType).length : Int) < 2 ^ 63) :
    (∀ (tally : Int × Int) (v : Visit) (d : DirEntry) (data : String),
      v.d = some d → d.isDir = false → rt.readFile v.path = Except.ok data →
      categorizeMailsVisit rt Real.log mc tally v =
        Except.ok
          (if (categorizeMail rt Real.log mc v.path).1 >
              (categorizeMail rt Real.log mc v.path).2.1
           then (wrapInt (tally.1 + 1), tally.2)
           else (tally.1, wrapInt (tally.2 + 1)))) ∧
    (∀ (tally : Int × Int) (x : ℝ), countMail tally x x = (tally.1, wrapInt (tally.2 + 1))) ∧
    categorizeMails rt Real.log mc mailType =
      some ((((walkedFiles rt mailType).countP
              (fun v => countsAsHam rt Real.log mc v.path) : Nat) : Int),
            (((walkedFiles rt mailType).countP
              (fun v => !countsAsHam rt Real.log mc v.path) : Nat) : Int),
            none) ∧
    (walkedFiles rt mailType).countP (fun v => countsAsHam rt Real.log mc v.path) +
      (walkedFiles rt mailType).countP (fun v => !countsAsHam rt Real.log mc v.path) =
      (walkedFiles rt mailType).length := by
  have h0 : isGoInt (0 : Int) := by unfold isGoInt; omega
  have hsum : (walkedFiles rt mailType).countP (fun v => countsAsHam rt Real.log mc v.path) +
      (walkedFiles rt mailType).countP (fun v => !countsAsHam rt Real.log mc v.path) =
      (walkedFiles rt mailType).length := by
    rw [List.length_eq_countP_add_countP (fun v => countsAsHam rt Real.log mc v.path)]
    simp
  refine ⟨?_, ?_, ?_, hsum⟩
  · intro tally v d data hd hdir hdata
    rw [categorizeMailsVisit_file rt mc tally v d data hd hdir hdata]
    rfl
  · intro tally x
    rw [countMail_eq, if_neg (lt_irrefl x)]
  · unfold categorizeMails
    rw [walkVisits_ok rt mc _ (0, 0) h0 h0 hentries hreads]
    simp only [zero_add]
    have hg1 : isGoInt (((walkedFiles rt mailType).countP
        (fun v => countsAsHam rt Real.log mc v.path) : Nat) : Int) := by
      unfold isGoInt
      omega
    have hg2 : isGoInt (((walkedFiles rt mailType).countP
        (fun v => !countsAsHam rt Real.log mc v.path) : Nat) : Int) := by
      unfold isGoInt
      omega
    unfold walkedFiles at hg1 hg2 ⊢
    rw [wrapInt_of_isGoInt hg1, wrapInt_of_isGoInt hg2]

theorem categorizeMails_tallies_witness :
    ((∀ v ∈ exampleRuntime.walkDir ("./enron6/" ++ Ham ++ "/"), v.d ≠ none) ∧
      ((walkedFiles exampleRuntime Ham).length : Int) < 2 ^ 63) ∧
    categorizeMails exampleRuntime Real.log exampleCategorizer Ham =
      some ((((walkedFiles exampleRuntime Ham).countP
              (fun v => countsAsHam exampleRuntime Real.log exampleCategorizer v.path) :
                Nat) : Int),
            (((walkedFiles exampleRuntime Ham).countP
              (fun v => !countsAsHam exampleRuntime Real.log exampleCategorizer v.path) :
                Nat) : Int),
            none) :=
  ⟨⟨by decide, by decide⟩,
    (categorizeMails_tallies exampleRuntime exampleCategorizer Ham (by decide)
      (by
        intro v hv _
        have hv2 : v = ⟨"mail.txt", some ⟨false⟩, none⟩ := by
          simpa [exampleRuntime] using hv
        subst hv2
        exact ⟨"meeting, 10:30!", rfl⟩)
      (by decide)).2.2.1⟩

/-! ## Swapping the two models -/

/-- Over the reals, exchanging the two models and their totals exchanges the two scores. -/
theorem scoreWords_swap (A B : Bow) (a b : Int) (order : List String) (hnd : order.Nodup) :
    scoreWords Real.log (newMailCategorizer B A b a) order =
      ((scoreWords Real.log (newMailCategorizer A B a b) order).2,
       (scoreWords Real.log (newMailCategorizer A B a b) order).1) := by
  have hfilter : order.toFinset.filter (fun w => B.get w ≠ 0 ∧ A.get w ≠ 0) =
      order.toFinset.filter (fun w => A.get w ≠ 0 ∧ B.get w ≠ 0) := by
    ext x
    simp only [Finset.mem_filter]
    tauto
  rw [scoreWords_real _ order hnd, scoreWords_real _ order hnd]
  simp only [newMailCategorizer, hfilter, add_comm (B.get _) (A.get _), add_comm b a]

/-- C8, amended: over the reals, for two distinct models with positive totals and every
document, in whatever orders the two classifiers visit its words, the decision with
`(ham, spam) = (A, B)` is the opposite of the decision with `(B, A)` whenever the two scores
differ; when the two scores are equal the document is counted as spam in both cases. -/
theorem swap_decisions_opposite_unless_tie (A B : Bow) (a b : Int) (d : Bow)
    (o1 o2 : List String) (_hAB : A ≠ B) (_ha : 0 < a) (_hb : 0 < b)
    (h1 : o1.Perm d.keys) (h2 : o2.Perm d.keys) :
    ((scoreWords Real.log (newMailCategorizer A B a b) o1).1 ≠
        (scoreWords Real.log (newMailCategorizer A B a b) o1).2 →
      ((scoreWords Real.log (newMailCategorizer A B a b) o1).2 <
          (scoreWords Real.log (newMailCategorizer A B a b) o1).1 ↔
        ¬ ((scoreWords Real.log (newMailCategorizer B A b a) o2).2 <
          (scoreWords Real.log (newMailCategorizer B A b a) o2).1))) ∧
    ((scoreWords Real.log (newMailCategorizer A B a b) o1).1 =
        (scoreWords Real.log (newMailCategorizer A B a b) o1).2 →
      (¬ ((scoreWords Real.log (newMailCategorizer A B a b) o1).2 <
          (scoreWords Real.log (newMailCategorizer A B a b) o1).1) ∧
       ¬ ((scoreWords Real.log (newMailCategorizer B A b a) o2).2 <
          (scoreWords Real.log (newMailCategorizer B A b a) o2).1))) := by
  have hswap : scoreWords Real.log (newMailCategorizer B A b a) o2 =
      ((scoreWords Real.log (newMailCategorizer A B a b) o1).2,
       (scoreWords Real.log (newMailCategorizer A B a b) o1).1) := by
    rw [← scoreWords_swap A B a b o1 (nodup_of_perm_keys h1)]
    apply scoreWords_real_congr _ o2 o1 (nodup_of_perm_keys h2) (nodup_of_perm_keys h1)
    rw [toFinset_of_perm_keys h2, toFinset_of_perm_keys h1]
  rw [hswap]
  constructor
  · intro hne
    constructor
    · intro h
      exact not_lt.mpr h.le
    · intro h
      exact lt_of_le_of_ne (not_lt.mp h) (Ne.symm hne)
  · intro heq
    rw [heq]
    exact ⟨lt_irrefl _, lt_irrefl _⟩

theorem swap_decisions_opposite_unless_tie_witness :
    (exampleHam ≠ exampleSpam ∧ (0 : Int) < 6 ∧ (0 : Int) < 16 ∧ ["free"].Perm freeMail.keys ∧
      (scoreWords Real.log (newMailCategorizer exampleHam exampleSpam 6 16) ["free"]).1 ≠
        (scoreWords Real.log (newMailCategorizer exampleHam exampleSpam 6 16) ["free"]).2) ∧
    ((scoreWords Real.log (newMailCategorizer exampleHam exampleSpam 6 16) ["free"]).2 <
        (scoreWords Real.log (newMailCategorizer exampleHam exampleSpam 6 16) ["free"]).1 ↔
      ¬ ((scoreWords Real.log (newMailCategorizer exampleSpam exampleHam 16 6) ["free"]).2 <
        (scoreWords Real.log (newMailCategorizer exampleSpam exampleHam 16 6) ["free"]).1)) := by
  have hne : (scoreWords Real.log (newMailCategorizer exampleHam exampleSpam 6 16) ["free"]).1 ≠
      (scoreWords Real.log (newMailCategorizer exampleHam exampleSpam 6 16) ["free"]).2 := by
    have h := exampleCategorizer_free
    unfold exampleCategorizer at h
    rw [h]
    exact ne_of_lt free_scores_lt
  have hmodels : exampleHam ≠ exampleSpam :=
    fun h => absurd (congrArg (fun m => Bow.get m "free") h) (by decide)
  exact ⟨⟨hmodels, by decide, by decide, by decide, hne⟩,
    (swap_decisions_opposite_unless_tie exampleHam exampleSpam 6 16 freeMail ["free"] ["free"]
      hmodels (by decide) (by decide) (by decide) (by decide)).1 hne⟩

/-! ## Building a model -/

theorem keys_addWordsToBow_perm (ws : List String) :
    (addWordsToBow ∅ ws).keys.Perm ws.dedup := by
  rw [List.perm_ext_iff_of_nodup (addWordsToBow ∅ ws).keys_nodup (List.nodup_dedup ws)]
  intro w
  rw [← AList.mem_keys, mem_addWordsToBow, List.mem_dedup]
  simp

theorem get_addWordsToBow_empty (ws : List String) (hlen : (ws.length : Int) < 2 ^ 63)
    (w : String) : (addWordsToBow ∅ ws).get w = (ws.count w : Int) := by
  rw [get_addWordsToBow, Bow.get_empty]
  by_cases hw : w ∈ ws
  · rw [if_pos hw, zero_add]
    apply wrapInt_of_isGoInt
    have hle : ws.count w ≤ ws.length := List.count_le_length w ws
    unfold isGoInt
    omega
  · rw [if_neg hw, List.count_eq_zero_of_not_mem hw]
    rfl

/-- C9: for a non-empty word sequence `ws` (a Go slice, so of length below `2^63`),
`addWordsToBow` applied to an empty `Bow` yields a mapping whose keys are exactly the words
of `ws`, in which each word's count is the number of its occurrences in `ws`, and whose
`totalWordCount` is `len(ws)`. -/
theorem addWordsToBow_empty_counts (rt : Runtime) (ws : List String) (_hne : ws ≠ [])
    (hlen : (ws.length : Int) < 2 ^ 63)
    (hrange : (rt.rangeOrder (addWordsToBow ∅ ws)).Perm (addWordsToBow ∅ ws).keys) :
    (∀ w, (addWordsToBow ∅ ws).get w = (ws.count w : Int)) ∧
    (∀ w, w ∈ addWordsToBow ∅ ws ↔ w ∈ ws) ∧
    totalWordCount rt (addWordsToBow ∅ ws) = (ws.length : Int) := by
  refine ⟨get_addWordsToBow_empty ws hlen, ?_, ?_⟩
  · intro w
    rw [mem_addWordsToBow]
    simp
  · unfold totalWordCount
    rw [totalWordCountOver_eq, (hrange.map _).sum_eq, ((keys_addWordsToBow_perm ws).map _).sum_eq]
    have hmap : ws.dedup.map (addWordsToBow ∅ ws).get =
        (ws.dedup.map (fun x => ws.count x)).map (fun n : Nat => (n : Int)) := by
      rw [List.map_map]
      apply List.map_congr_left
      intro w _
      exact get_addWordsToBow_empty ws hlen w
    rw [hmap, ← Nat.cast_list_sum, List.sum_map_count_dedup_eq_length]
    apply wrapInt_of_isGoInt
    unfold isGoInt
    omega

theorem addWordsToBow_empty_counts_witness :
    (["free", "win", "free"] ≠ [] ∧ ((["free", "win", "free"].length : Nat) : Int) < 2 ^ 63) ∧
    totalWordCount exampleRuntime (addWordsToBow ∅ ["free", "win", "free"]) = 3 ∧
    (addWordsToBow ∅ ["free", "win", "free"]).get "free" = 2 :=
  ⟨⟨by decide, by decide⟩,
    (addWordsToBow_empty_counts exampleRuntime ["free", "win", "free"] (by decide) (by decide)
      (List.Perm.refl _)).2.2,
    (addWordsToBow_empty_counts exampleRuntime ["free", "win", "free"] (by decide) (by decide)
      (List.Perm.refl _)).1 "free"⟩

/-- C10, the counterexample: `newMailCategorizer` called with two empty models and the
totals `1` and `1` stores `totalHamCount = 1` and `totalSpamCount = 1`, while the values of
each mapping sum to `0`. -/
theorem newMailCategorizer_totals_not_recomputed :
    (newMailCategorizer ∅ ∅ 1 1).totalHamCount = 1 ∧
    (newMailCategorizer ∅ ∅ 1 1).hamBow.values.sum = 0 ∧
    (newMailCategorizer ∅ ∅ 1 1).totalSpamCount = 1 ∧
    (newMailCategorizer ∅ ∅ 1 1).spamBow.values.sum = 0 := by
  decide

/-- C10, amended: in the classifier state that `main` builds, where the totals passed to
`newMailCategorizer` are `totalWordCount(hamBow)` and `totalWordCount(spamBow)`, the stored
`totalHamCount` is the sum of the values of `hamBow` and the stored `totalSpamCount` is the
sum of the values of `spamBow`, reduced to an `int`; they are these sums themselves whenever
the sums are `int`s. -/
theorem mainCategorizer_totals (rt : Runtime) (hamBow spamBow : Bow)
    (hrange : ∀ b : Bow, (rt.rangeOrder b).Perm b.keys) :
    (mainCategorizer rt hamBow spamBow).hamBow = hamBow ∧
    (mainCategorizer rt hamBow spamBow).spamBow = spamBow ∧
    (mainCategorizer rt hamBow spamBow).totalHamCount = wrapInt hamBow.values.sum ∧
    (mainCategorizer rt hamBow spamBow).totalSpamCount = wrapInt spamBow.values.sum ∧
    (isGoInt hamBow.values.sum →
      (mainCategorizer rt hamBow spamBow).totalHamCount = hamBow.values.sum) ∧
    (isGoInt spamBow.values.sum →
      (mainCategorizer rt hamBow spamBow).totalSpamCount = spamBow.values.sum) := by
  have hh : (mainCategorizer rt hamBow spamBow).totalHamCount = wrapInt hamBow.values.sum :=
    totalWordCountOver_perm _ hamBow (hrange hamBow)
  have hs : (mainCategorizer rt hamBow spamBow).totalSpamCount = wrapInt spamBow.values.sum :=
    totalWordCountOver_perm _ spamBow (hrange spamBow)
  refine ⟨rfl, rfl, hh, hs, fun h => ?_, fun h => ?_⟩
  · rw [hh, wrapInt_of_isGoInt h]
  · rw [hs, wrapInt_of_isGoInt h]

theorem mainCategorizer_totals_witness :
    (∀ b : Bow, (exampleRuntime.rangeOrder b).Perm b.keys) ∧
    (mainCategorizer exampleRuntime exampleHam exampleSpam).totalHamCount = 6 ∧
    (mainCategorizer exampleRuntime exampleHam exampleSpam).totalSpamCount = 16 :=
  ⟨fun _ => List.Perm.refl _,
    ((mainCategorizer_totals exampleRuntime exampleHam exampleSpam
      (fun _ => List.Perm.refl _)).2.2.2.2.1 (by decide)).trans (by decide),
    ((mainCategorizer_totals exampleRuntime exampleHam exampleSpam
      (fun _ => List.Perm.refl _)).2.2.2.2.2 (by decide)).trans (by decide)⟩

/-! ## Counts stay positive -/

/-- C11, the counterexample: in the model `{"a": 2^63 - 1}` every present word has a count
that is an `int` and is at least `1`; after `addWordsToBow` with the one word "a" the word
"a" is present with the count `-2^63`. -/
theorem addWordsToBow_count_wraps :
    (∀ w ∈ maxCountBow.keys, 1 ≤ maxCountBow.get w ∧ isGoInt (maxCountBow.get w)) ∧
    "a" ∈ (addWordsToBow maxCountBow ["a"]).keys ∧
    (addWordsToBow maxCountBow ["a"]).get "a" = -2 ^ 63 ∧
    ¬ (1 ≤ (addWordsToBow maxCountBow ["a"]).get "a") := by
  decide

/-- C11, amended: the empty `Bow` has no present word with a count below `1`; for every
`Bow` in which every present word has a count of at least `1` and every word sequence `ws`,
after `addWordsToBow` no present word has the count `0`, and every present word has a count
of at least `1` provided that, for every word, its count plus the number of its occurrences
in `ws` stays below `2^63`; in particular every count in a model built from the empty `Bow`
is at least `1`. -/
theorem addWordsToBow_counts_positive (b : Bow) (ws : List String)
    (hpos : ∀ w ∈ b, 1 ≤ b.get w) (hint : ∀ w, isGoInt (b.get w))
    (hlen : (ws.length : Int) < 2 ^ 63) :
    (∀ w ∈ (∅ : Bow), 1 ≤ Bow.get ∅ w) ∧
    (∀ w ∈ addWordsToBow b ws, (addWordsToBow b ws).get w ≠ 0) ∧
    ((∀ w, b.get w + (ws.count w : Int) < 2 ^ 63) →
      ∀ w ∈ addWordsToBow b ws, 1 ≤ (addWordsToBow b ws).get w) ∧
    (∀ w ∈ addWordsToBow ∅ ws, 1 ≤ (addWordsToBow ∅ ws).get w) := by
  have hnonneg : ∀ w, 0 ≤ b.get w := by
    intro w
    by_cases hw : w ∈ b
    · have := hpos w hw
      omega
    · rw [Bow.get_eq_zero_of_not_mem hw]
  refine ⟨fun w hw => absurd hw (AList.not_mem_empty w), ?_, ?_, ?_⟩
  rotate_right
  · intro w hw
    rw [get_addWordsToBow_empty ws hlen w]
    have hws : w ∈ ws := by
      rcases (mem_addWordsToBow ∅ ws w).mp hw with h | h
      · exact absurd h (AList.not_mem_empty w)
      · exact h
    have hc : 0 < ws.count w := List.count_pos_iff.mpr hws
    omega
  · intro w hw
    rw [get_addWordsToBow]
    by_cases hws : w ∈ ws
    · rw [if_pos hws]
      have hc : 0 < ws.count w := List.count_pos_iff.mpr hws
      have hle : ws.count w ≤ ws.length := List.count_le_length w ws
      have h0 := hnonneg w
      have h1 := (hint w).2
      unfold wrapInt
      omega
    · rw [if_neg hws]
      have hb : w ∈ b := by
        rcases (mem_addWordsToBow b ws w).mp hw with h | h
        · exact h
        · exact absurd h hws
      have := hpos w hb
      omega
  · intro hfit w hw
    rw [get_addWordsToBow]
    by_cases hws : w ∈ ws
    · rw [if_pos hws]
      have hc : 0 < ws.count w := List.count_pos_iff.mpr hws
      have h0 := hnonneg w
      have h1 := hfit w
      rw [wrapInt_of_isGoInt (by unfold isGoInt; omega)]
      omega
    · rw [if_neg hws]
      rcases (mem_addWordsToBow b ws w).mp hw with h | h
      · exact hpos w h
      · exact absurd h hws

theorem addWordsToBow_counts_positive_witness :
    ((∀ w ∈ exampleHam.keys, 1 ≤ exampleHam.get w) ∧
      ((["free", "win", "free"].length : Nat) : Int) < 2 ^ 63) ∧
    ∀ w ∈ addWordsToBow exampleHam ["free", "win", "free"],
      1 ≤ (addWordsToBow exampleHam ["free", "win", "free"]).get w :=
  ⟨⟨by decide, by decide⟩,
    (addWordsToBow_counts_positive exampleHam ["free", "win", "free"]
      (fun w hw => by
        have hk : w ∈ exampleHam.keys := AList.mem_keys.mp hw
        have hall : ∀ x ∈ exampleHam.keys, 1 ≤ exampleHam.get x := by decide
        exact hall w hk)
      (fun w => by
        by_cases hw : w ∈ exampleHam
        · have hk : w ∈ exampleHam.keys := AList.mem_keys.mp hw
          have hall : ∀ x ∈ exampleHam.keys, isGoInt (exampleHam.get x) := by decide
          exact hall w hk
        · rw [Bow.get_eq_zero_of_not_mem hw]
          decide)
      (by decide)).2.2.1
      (fun w => by
        have hle : (["free", "win", "free"] : List String).count w ≤ 3 :=
          List.count_le_length w _
        by_cases hw : w ∈ exampleHam
        · have hk : w ∈ exampleHam.keys := AList.mem_keys.mp hw
          have hall : ∀ x ∈ exampleHam.keys, exampleHam.get x ≤ 5 := by decide
          have := hall w hk
          omega
        · rw [Bow.get_eq_zero_of_not_mem hw]
          omega)⟩

/-! ## Zero totals -/

/-- C12, the counterexample: with two empty corpora `main` builds, without any error, a
classifier whose two totals are `0`; `newMailCategorizer` also accepts a zero spam total
next to a non-empty ham model; and `categorizeMail` scores a file with either classifier and
returns a nil error. -/
theorem zero_totals_accepted :
    (mainCategorizer exampleRuntime ∅ ∅).totalHamCount = 0 ∧
    (mainCategorizer exampleRuntime ∅ ∅).totalSpamCount = 0 ∧
    (mainCategorizer exampleRuntime ∅ ∅).totalCount = 0 ∧
    (categorizeMail exampleRuntime Real.log (mainCategorizer exampleRuntime ∅ ∅)
      "mail.txt").2.2 = none ∧
    (newMailCategorizer exampleHam ∅ 6 0).totalSpamCount = 0 ∧
    (categorizeMail exampleRuntime Real.log (newMailCategorizer exampleHam ∅ 6 0)
      "mail.txt").2.2 = none := by
  refine ⟨by decide, by decide, by decide, ?_, by decide, ?_⟩
  · exact categorizeMail_of_read exampleRuntime _ "mail.txt" "meeting, 10:30!" rfl
  · exact categorizeMail_of_read exampleRuntime _ "mail.txt" "meeting, 10:30!" rfl

/-- C12, amended: model construction does not check the totals: for every pair of totals,
zero included, `newMailCategorizer` returns a classifier that stores them, and
`categorizeMail` scores every file that can be read with that classifier and returns a nil
error; the divisor `totalCount` of the prior is nonzero whenever both totals are positive
and their sum is an `int`. -/
theorem newMailCategorizer_accepts_any_totals (rt : Runtime) (hamBow spamBow : Bow)
    (a b : Int) (path data : String) (hread : rt.readFile path = Except.ok data) :
    (newMailCategorizer hamBow spamBow a b).totalHamCount = a ∧
    (newMailCategorizer hamBow spamBow a b).totalSpamCount = b ∧
    (categorizeMail rt Real.log (newMailCategorizer hamBow spamBow a b) path).2.2 = none ∧
    (0 < a → 0 < b → isGoInt (a + b) →
      (newMailCategorizer hamBow spamBow a b).totalCount ≠ 0) := by
  refine ⟨rfl, rfl, categorizeMail_of_read rt _ path data hread, ?_⟩
  intro ha hb hfit
  rw [newMailCategorizer_totalCount hamBow spamBow a b hfit]
  show a + b ≠ 0
  omega

theorem newMailCategorizer_accepts_any_totals_witness :
    exampleRuntime.readFile "mail.txt" = Except.ok "meeting, 10:30!" ∧
    (newMailCategorizer exampleHam exampleSpam 0 16).totalHamCount = 0 ∧
    (categorizeMail exampleRuntime Real.log (newMailCategorizer exampleHam exampleSpam 0 16)
      "mail.txt").2.2 = none :=
  ⟨rfl,
    (newMailCategorizer_accepts_any_totals exampleRuntime exampleHam exampleSpam 0 16
      "mail.txt" "meeting, 10:30!" rfl).1,
    (newMailCategorizer_accepts_any_totals exampleRuntime exampleHam exampleSpam 0 16
      "mail.txt" "meeting, 10:30!" rfl).2.2.1⟩

/-! ## Ingestion order -/

/-- The entry of a word after `addWordsToBow`, in machine arithmetic. -/
theorem lookup_addWordsToBow (b : Bow) (ws : List String) (x : String) :
    (addWordsToBow b ws).lookup x =
      if x ∈ ws then some (wrapInt (b.get x + (ws.count x : Int))) else b.lookup x := by
  by_cases hx : x ∈ ws
  · rw [if_pos hx]
    have hmem : x ∈ addWordsToBow b ws := (mem_addWordsToBow b ws x).mpr (Or.inr hx)
    have hget := get_addWordsToBow b ws x
    rw [if_pos hx] at hget
    obtain ⟨v, hv⟩ := Option.isSome_iff_exists.mp (AList.lookup_isSome.mpr hmem)
    rw [hv]
    unfold Bow.get at hget
    rw [hv] at hget
    simp only [Option.getD_some] at hget
    rw [hget]
    rfl
  · rw [if_neg hx]
    induction ws generalizing b with
    | nil => rfl
    | cons w ws ih =>
      have hxw : x ≠ w := fun h => hx (h ▸ List.mem_cons_self _ _)
      have hxws : x ∉ ws := fun h => hx (List.mem_cons_of_mem _ h)
      rw [addWordsToBow_cons, ih _ hxws, AList.lookup_insert_ne hxw]

theorem addWordsToBow_append (b : Bow) (ws1 ws2 : List String) :
    addWordsToBow b (ws1 ++ ws2) = addWordsToBow (addWordsToBow b ws1) ws2 := by
  unfold addWordsToBow
  rw [List.foldl_append]

theorem lookup_addWordsToBow_perm (b : Bow) (ws1 ws2 : List String) (h : ws1.Perm ws2)
    (w : String) : (addWordsToBow b ws1).lookup w = (addWordsToBow b ws2).lookup w := by
  rw [lookup_addWordsToBow, lookup_addWordsToBow, h.count_eq w]
  by_cases hw : w ∈ ws1
  · rw [if_pos hw, if_pos (h.mem_iff.mp hw)]
  · rw [if_neg hw, if_neg (fun h2 => hw (h.mem_iff.mpr h2))]

/-- C13: ingestion order does not affect the final counts: for every `Bow` and every two
word sequences that are permutations of each other, `addWordsToBow` produces mappings with
the same entry for every word (the same keys, each with the same count); in particular
ingesting document `d1` then `d2` gives the same mapping as ingesting `d2` then `d1`. -/
theorem addWordsToBow_order_irrelevant (b : Bow) (ws1 ws2 : List String)
    (h : ws1.Perm ws2) :
    (∀ w, (addWordsToBow b ws1).lookup w = (addWordsToBow b ws2).lookup w) ∧
    (addWordsToBow b ws1).entries.Perm (addWordsToBow b ws2).entries ∧
    (∀ (d1 d2 : List String) (w : String),
      (addWordsToBow (addWordsToBow b d1) d2).lookup w =
        (addWordsToBow (addWordsToBow b d2) d1).lookup w) := by
  refine ⟨lookup_addWordsToBow_perm b ws1 ws2 h, ?_, ?_⟩
  · apply List.lookup_ext (addWordsToBow b ws1).nodupKeys (addWordsToBow b ws2).nodupKeys
    intro x y
    have := lookup_addWordsToBow_perm b ws1 ws2 h x
    unfold AList.lookup at this
    rw [this]
  · intro d1 d2 w
    rw [← addWordsToBow_append, ← addWordsToBow_append]
    exact lookup_addWordsToBow_perm b _ _ List.perm_append_comm w

theorem addWordsToBow_order_irrelevant_witness :
    ["free", "win", "free"].Perm ["win", "free", "free"] ∧
    ∀ w, (addWordsToBow exampleHam ["free", "win", "free"]).lookup w =
      (addWordsToBow exampleHam ["win", "free", "free"]).lookup w :=
  ⟨by decide,
    (addWordsToBow_order_irrelevant exampleHam ["free", "win", "free"]
      ["win", "free", "free"] (by decide)).1⟩

/-! ## The tokenizer -/

/-- The loop of `FieldsFunc` returns the pieces between separators, without the empty ones. -/
theorem fieldsFuncLoop_eq_splitOnP (f : Char → Bool) (cs cur : List Char) :
    fieldsFuncLoop f cs cur =
      (List.splitOnP.go f cs cur.reverse).filter (fun t => !t.isEmpty) := by
  induction cs generalizing cur with
  | nil =>
    cases cur with
    | nil => simp [fieldsFuncLoop, List.splitOnP.go]
    | cons c cur => simp [fieldsFuncLoop, List.splitOnP.go]
  | cons c cs ih =>
    unfold fieldsFuncLoop List.splitOnP.go
    by_cases hf : f c = true
    · simp only [hf, if_true]
      rw [ih []]
      cases cur with
      | nil => simp
      | cons x cur => simp
    · simp only [hf, Bool.false_eq_true, if_false]
      rw [ih (cur ++ [c])]
      simp

/-- Every field is non-empty and made of runes that are not separators. -/
theorem fieldsFuncLoop_fields (f : Char → Bool) (cs cur : List Char)
    (hcur : ∀ c ∈ cur, f c = false) :
    ∀ t ∈ fieldsFuncLoop f cs cur, t ≠ [] ∧ ∀ c ∈ t, f c = false := by
  induction cs generalizing cur with
  | nil =>
    intro t ht
    unfold fieldsFuncLoop at ht
    by_cases hc : cur = []
    · simp [hc] at ht
    · simp only [hc, if_false, List.mem_singleton] at ht
      subst ht
      exact ⟨hc, hcur⟩
  | cons c cs ih =>
    intro t ht
    unfold fieldsFuncLoop at ht
    by_cases hf : f c = true
    · simp only [hf, if_true] at ht
      by_cases hc : cur = []
      · simp only [hc, if_true] at ht
        exact ih [] (fun x hx => absurd hx (List.not_mem_nil x)) t ht
      · simp only [hc, if_false, List.mem_cons] at ht
        rcases ht with ht | ht
        · subst ht
          exact ⟨hc, hcur⟩
        · exact ih [] (fun x hx => absurd hx (List.not_mem_nil x)) t ht
    · simp only [hf, Bool.false_eq_true, if_false] at ht
      have hf2 : f c = false := by simpa using hf
      refine ih (cur ++ [c]) ?_ t ht
      intro x hx
      rcases List.mem_append.mp hx with h | h
      · exact hcur x h
      · rw [List.mem_singleton.mp h]
        exact hf2

/-- The fields, put end to end, are the input without its separators. -/
theorem fieldsFuncLoop_flatten (f : Char → Bool) (cs cur : List Char) :
    (fieldsFuncLoop f cs cur).flatten = cur ++ cs.filter (fun c => !f c) := by
  induction cs generalizing cur with
  | nil =>
    unfold fieldsFuncLoop
    by_cases hc : cur = []
    · simp [hc]
    · simp [hc]
  | cons c cs ih =>
    unfold fieldsFuncLoop
    by_cases hf : f c = true
    · by_cases hc : cur = []
      · simp [hf, hc, ih]
      · simp [hf, hc, ih]
    · have hf2 : f c = false := by simpa using hf
      simp [hf2, ih]

/-- An input without separators is a single field. -/
theorem fieldsFuncLoop_of_no_separator (f : Char → Bool) (cs cur : List Char)
    (h : ∀ c ∈ cs, f c = false) :
    fieldsFuncLoop f cs cur = if cur ++ cs = [] then [] else [cur ++ cs] := by
  induction cs generalizing cur with
  | nil =>
    unfold fieldsFuncLoop
    simp
  | cons c cs ih =>
    unfold fieldsFuncLoop
    have hc : f c = false := h c (List.mem_cons_self c cs)
    simp only [hc, Bool.false_eq_true, if_false]
    rw [ih (cur ++ [c]) (fun x hx => h x (List.mem_cons_of_mem c hx))]
    simp

/-- An input made of separators only has no field. -/
theorem fieldsFuncLoop_of_only_separators (f : Char → Bool) (cs : List Char)
    (h : ∀ c ∈ cs, f c = true) : fieldsFuncLoop f cs [] = [] := by
  induction cs with
  | nil => rfl
  | cons c cs ih =>
    unfold fieldsFuncLoop
    have hc : f c = true := h c (List.mem_cons_self c cs)
    simp only [hc, if_true]
    exact ih (fun x hx => h x (List.mem_cons_of_mem c hx))

/-- When no letter is a space or a punctuation mark, the separators of `tokenizeFile` are
the runes that are not letters. -/
theorem separator_eq_not_letter (rt : Runtime)
    (hdisj : ∀ c, rt.isLetter c = true → rt.isSpace c = false ∧ rt.isPunct c = false) :
    (fun r => rt.isSpace r || rt.isPunct r || !rt.isLetter r) = (fun r => !rt.isLetter r) := by
  funext r
  by_cases hl : rt.isLetter r = true
  · obtain ⟨h1, h2⟩ := hdisj r hl
    simp [h1, h2, hl]
  · have hl2 : rt.isLetter r = false := by simpa using hl
    simp [hl2]

theorem map_data_map_mk (l : List (List Char)) : (l.map String.mk).map String.data = l := by
  induction l with
  | nil => rfl
  | cons x xs ih =>
    rw [List.map_cons, List.map_cons, ih]

/-- C14: when no letter is a space or a punctuation mark (as in the Unicode tables), for
every input `tokenizeFile` returns the maximal runs of letters of the input, in input order
and unchanged: every token is non-empty and made of letters only, the tokens put end to end
are the input without its non-letter runes, and the tokens are the pieces into which the
input splits at its non-letter runes, the empty pieces left out. -/
theorem tokenizeFile_letter_runs (rt : Runtime) (data : String)
    (hdisj : ∀ c, rt.isLetter c = true → rt.isSpace c = false ∧ rt.isPunct c = false) :
    (∀ t ∈ tokenizeFile rt data, t ≠ "" ∧ ∀ c ∈ t.data, rt.isLetter c = true) ∧
    ((tokenizeFile rt data).map String.data).flatten = data.data.filter rt.isLetter ∧
    (tokenizeFile rt data).map String.data =
      (data.data.splitOnP (fun c => !rt.isLetter c)).filter (fun t => !t.isEmpty) := by
  unfold tokenizeFile fieldsFunc
  rw [separator_eq_not_letter rt hdisj, map_data_map_mk]
  refine ⟨?_, ?_, ?_⟩
  · intro t ht
    obtain ⟨cs, hcs, rfl⟩ := List.mem_map.mp ht
    obtain ⟨hne, hall⟩ := fieldsFuncLoop_fields (fun c => !rt.isLetter c) data.data []
      (fun x hx => absurd hx (List.not_mem_nil x)) cs hcs
    constructor
    · intro h
      apply hne
      have := congrArg String.data h
      simpa using this
    · intro c hc
      have := hall c hc
      simpa using this
  · rw [fieldsFuncLoop_flatten]
    simp
  · rw [fieldsFuncLoop_eq_splitOnP]
    rfl

theorem tokenizeFile_letter_runs_witness :
    (∀ c, exampleRuntime.isLetter c = true →
      exampleRuntime.isSpace c = false ∧ exampleRuntime.isPunct c = false) ∧
    ((tokenizeFile exampleRuntime "meeting, 10:30!").map String.data).flatten =
      ("meeting, 10:30!".data).filter exampleRuntime.isLetter := by
  have hdisj : ∀ c, exampleRuntime.isLetter c = true →
      exampleRuntime.isSpace c = false ∧ exampleRuntime.isPunct c = false := by
    intro c hc
    have h1 : c ≠ ' ' := fun h => by rw [h] at hc; exact absurd hc (by decide)
    have h2 : c ≠ ',' := fun h => by rw [h] at hc; exact absurd hc (by decide)
    have h3 : c ≠ '!' := fun h => by rw [h] at hc; exact absurd hc (by decide)
    have h4 : c ≠ ':' := fun h => by rw [h] at hc; exact absurd hc (by decide)
    simp [exampleRuntime, h1, h2, h3, h4]
  exact ⟨hdisj, (tokenizeFile_letter_runs exampleRuntime "meeting, 10:30!" hdisj).2.1⟩

/-- C15: when no letter is a space or a punctuation mark, for every non-empty string `w`
made of letters only, `tokenizeFile(w) = [w]`. -/
theorem tokenizeFile_single_word (rt : Runtime) (w : String)
    (hdisj : ∀ c, rt.isLetter c = true → rt.isSpace c = false ∧ rt.isPunct c = false)
    (hne : w ≠ "") (hletters : ∀ c ∈ w.data, rt.isLetter c = true) :
    tokenizeFile rt w = [w] := by
  unfold tokenizeFile fieldsFunc
  rw [separator_eq_not_letter rt hdisj,
    fieldsFuncLoop_of_no_separator _ _ _ (fun c hc => by simp [hletters c hc])]
  have hdata : w.data ≠ [] := by
    intro h
    apply hne
    cases w
    simp_all
  simp [hdata]

theorem tokenizeFile_single_word_witness :
    ("meeting" ≠ "" ∧ ∀ c ∈ "meeting".data, exampleRuntime.isLetter c = true) ∧
    tokenizeFile exampleRuntime "meeting" = ["meeting"] :=
  ⟨⟨by decide, by decide⟩,
    tokenizeFile_single_word exampleRuntime "meeting"
      (by
        intro c hc
        have h1 : c ≠ ' ' := fun h => by rw [h] at hc; exact absurd hc (by decide)
        have h2 : c ≠ ',' := fun h => by rw [h] at hc; exact absurd hc (by decide)
        have h3 : c ≠ '!' := fun h => by rw [h] at hc; exact absurd hc (by decide)
        have h4 : c ≠ ':' := fun h => by rw [h] at hc; exact absurd hc (by decide)
        simp [exampleRuntime, h1, h2, h3, h4])
      (by decide) (by decide)⟩

/-- C16: digits not being letters (as in the Unicode tables), for every string made only of
digits, punctuation marks and white space, the empty string included, `tokenizeFile`
returns the empty sequence. -/
theorem tokenizeFile_no_letters (rt : Runtime) (isDigit : Char → Bool) (s : String)
    (hdigit : ∀ c, isDigit c = true → rt.isLetter c = false)
    (hs : ∀ c ∈ s.data, isDigit c = true ∨ rt.isPunct c = true ∨ rt.isSpace c = true) :
    tokenizeFile rt s = [] := by
  unfold tokenizeFile fieldsFunc
  rw [fieldsFuncLoop_of_only_separators]
  · rfl
  · intro c hc
    rcases hs c hc with h | h | h
    · simp [hdigit c h]
    · simp [h]
    · simp [h]

theorem tokenizeFile_no_letters_witness :
    (∀ c ∈ "10:30, !".data,
      decide (c ∈ ['0', '1', '2', '3', '4', '5', '6', '7', '8', '9']) = true ∨
        exampleRuntime.isPunct c = true ∨ exampleRuntime.isSpace c = true) ∧
    tokenizeFile exampleRuntime "10:30, !" = [] ∧ tokenizeFile exampleRuntime "" = [] :=
  have hall : ∀ x ∈ ['0', '1', '2', '3', '4', '5', '6', '7', '8', '9'],
      exampleRuntime.isLetter x = false := by decide
  have hdigit : ∀ c, decide (c ∈ ['0', '1', '2', '3', '4', '5', '6', '7', '8', '9']) = true →
      exampleRuntime.isLetter c = false := fun c hc => hall c (of_decide_eq_true hc)
  ⟨by decide,
    tokenizeFile_no_letters exampleRuntime
      (fun c => decide (c ∈ ['0', '1', '2', '3', '4', '5', '6', '7', '8', '9']))
      "10:30, !" hdigit (by decide),
    tokenizeFile_no_letters exampleRuntime
      (fun c => decide (c ∈ ['0', '1', '2', '3', '4', '5', '6', '7', '8', '9']))
      "" hdigit (by decide)⟩

/-! ## Failures in the batch driver -/

theorem categorizeMail_of_read_error (rt : Runtime) (mc : mailCategorizer)
    (path : String) (err : FileError) (h : rt.readFile path = Except.error err) :
    categorizeMail rt Real.log mc path = (0, 0, some err) := by
  unfold categorizeMail addFileToBow
  simp only [h]

/-- The callback on a file that cannot be read returns the error of the read. -/
theorem categorizeMailsVisit_read_error (rt : Runtime) (mc : mailCategorizer)
    (tally : Int × Int) (v : Visit) (err : FileError) (hfile : v.isFile = true)
    (h : rt.readFile v.path = Except.error err) :
    categorizeMailsVisit rt Real.log mc tally v = Except.error (Abort.failed err) := by
  unfold Visit.isFile at hfile
  unfold categorizeMailsVisit
  rcases hd : v.d with _ | d
  · rw [hd] at hfile
    exact absurd hfile (by decide)
  · rw [hd] at hfile
    have hdir : d.isDir = false := by simpa using hfile
    simp only [hdir, Bool.false_eq_true, if_false]
    rw [categorizeMail_of_read_error rt mc v.path err h]

/-- The callback on the nil entry panics. -/
theorem categorizeMailsVisit_nil (rt : Runtime) (mc : mailCategorizer)
    (tally : Int × Int) (v : Visit) (h : v.d = none) :
    categorizeMailsVisit rt Real.log mc tally v = Except.error Abort.nilEntry := by
  unfold categorizeMailsVisit
  simp only [h]

theorem walkVisits_cons (rt : Runtime) (mc : mailCategorizer) (v : Visit) (vs : List Visit)
    (tally : Int × Int) :
    walkVisits rt Real.log mc tally (v :: vs) =
      (match categorizeMailsVisit rt Real.log mc tally v with
       | Except.error a => Except.error a
       | Except.ok t => walkVisits rt Real.log mc t vs) := by
  rw [walkVisits]

theorem walkVisits_append (rt : Runtime) (mc : mailCategorizer) (pre rest : List Visit)
    (tally : Int × Int) :
    walkVisits rt Real.log mc tally (pre ++ rest) =
      (match walkVisits rt Real.log mc tally pre with
       | Except.error a => Except.error a
       | Except.ok t => walkVisits rt Real.log mc t rest) := by
  induction pre generalizing tally with
  | nil => rfl
  | cons v vs ih =>
    rw [List.cons_append, walkVisits_cons, walkVisits_cons]
    rcases categorizeMailsVisit rt Real.log mc tally v with a | t
    · rfl
    · exact ih t

/-- When the root cannot be examined, `filepath.WalkDir` hands the nil entry to the
callback, and `categorizeMails` panics. -/
theorem categorizeMails_nil_root (rt : Runtime) (mc : mailCategorizer) (mailType : MailType)
    (v : Visit) (rest : List Visit) (hv : v.d = none)
    (hwalk : rt.walkDir ("./enron6/" ++ mailType ++ "/") = v :: rest) :
    categorizeMails rt Real.log mc mailType = none := by
  unfold categorizeMails
  rw [hwalk, walkVisits_cons, categorizeMailsVisit_nil rt mc (0, 0) v hv]

/-- What holds of `categorizeMails` when the walk hands only non-nil entries to the
callback: if the read of a file fails with an error, the files before it having been read,
the function returns `(0, 0, err)` with that error, however many files were counted before;
and if the read of every file succeeds, the function returns two tallies and a nil error. -/
theorem categorizeMails_error_aborts (rt : Runtime) (mc : mailCategorizer)
    (mailType : MailType)
    (hentries : ∀ v ∈ rt.walkDir ("./enron6/" ++ mailType ++ "/"), v.d ≠ none) :
    (∀ (pre post : List Visit) (v : Visit) (err : FileError),
      rt.walkDir ("./enron6/" ++ mailType ++ "/") = pre ++ v :: post →
      (∀ u ∈ pre, u.isFile = true → ∃ data, rt.readFile u.path = Except.ok data) →
      v.isFile = true → rt.readFile v.path = Except.error err →
      categorizeMails rt Real.log mc mailType = some (0, 0, some err)) ∧
    ((∀ v ∈ rt.walkDir ("./enron6/" ++ mailType ++ "/"), v.isFile = true →
        ∃ data, rt.readFile v.path = Except.ok data) →
      ∃ hamCount spamCount : Int,
        categorizeMails rt Real.log mc mailType = some (hamCount, spamCount, none)) := by
  have h0 : isGoInt (0 : Int) := by unfold isGoInt; omega
  constructor
  · intro pre post v err hwalk hpre hfile herr
    have hentries2 : ∀ u ∈ pre, u.d ≠ none := by
      intro u hu
      apply hentries
      rw [hwalk]
      exact List.mem_append_left _ hu
    unfold categorizeMails
    rw [hwalk, walkVisits_append, walkVisits_ok rt mc pre (0, 0) h0 h0 hentries2 hpre]
    simp only
    rw [walkVisits_cons, categorizeMailsVisit_read_error rt mc _ v err hfile herr]
  · intro hreads
    unfold categorizeMails
    rw [walkVisits_ok rt mc _ (0, 0) h0 h0 hentries hreads]
    exact ⟨_, _, rfl⟩

/-- C17, the failing inputs: when the directory "./enron6/ham/" does not exist the callback
receives the nil entry together with the error, dereferences the entry, and
`categorizeMails` panics: it returns neither `(0, 0, err)` nor a nil error.  When a
subdirectory cannot be read the callback receives the error of the failed read, does not
look at it, and `categorizeMails` returns tallies with a nil error. -/
theorem categorizeMails_ignores_walk_errors :
    missingRootRuntime.walkDir ("./enron6/" ++ Ham ++ "/") =
      [⟨"./enron6/ham/", none, some "no such file or directory"⟩] ∧
    categorizeMails missingRootRuntime Real.log exampleCategorizer Ham = none ∧
    (∃ v ∈ unreadableDirRuntime.walkDir ("./enron6/" ++ Ham ++ "/"),
      v.err = some "permission denied") ∧
    (∃ hamCount spamCount : Int,
      categorizeMails unreadableDirRuntime Real.log exampleCategorizer Ham =
        some (hamCount, spamCount, none)) := by
  refine ⟨by decide, ?_, by decide, ?_⟩
  · exact categorizeMails_nil_root missingRootRuntime exampleCategorizer Ham _ [] rfl rfl
  · have h0 : isGoInt (0 : Int) := by decide
    unfold categorizeMails
    rw [walkVisits_ok unreadableDirRuntime exampleCategorizer _ (0, 0) h0 h0 (by decide)]
    · exact ⟨_, _, rfl⟩
    · intro v hv hfile
      have hall : ∀ u ∈ unreadableDirRuntime.walkDir ("./enron6/" ++ Ham ++ "/"),
          u.isFile = true → u.path = "mail.txt" := by decide
      rw [hall v hv hfile]
      exact ⟨"meeting, 10:30!", rfl⟩

/-! ## Construction of the classifier -/

/-- C18: for every pair of models and every pair of totals, `newMailCategorizer` stores the
two models and the two totals unchanged and sets `totalCount` to
`totalHamCount + totalSpamCount`: to the `int` sum the program computes, which is the sum of
the two integers whenever that sum is an `int`. -/
theorem newMailCategorizer_fields (hamBow spamBow : Bow) (a b : Int) :
    (newMailCategorizer hamBow spamBow a b).hamBow = hamBow ∧
    (newMailCategorizer hamBow spamBow a b).spamBow = spamBow ∧
    (newMailCategorizer hamBow spamBow a b).totalHamCount = a ∧
    (newMailCategorizer hamBow spamBow a b).totalSpamCount = b ∧
    (newMailCategorizer hamBow spamBow a b).totalCount = wrapInt (a + b) ∧
    (isGoInt (a + b) → (newMailCategorizer hamBow spamBow a b).totalCount = a + b) :=
  ⟨rfl, rfl, rfl, rfl, rfl, fun h => wrapInt_of_isGoInt h⟩

theorem newMailCategorizer_fields_witness :
    isGoInt (6 + 16) ∧ (newMailCategorizer exampleHam exampleSpam 6 16).totalCount = 6 + 16 :=
  ⟨by decide, (newMailCategorizer_fields exampleHam exampleSpam 6 16).2.2.2.2.2 (by decide)⟩

/-! ## The common term of the two scores -/

/-- C19: for every classifier state with `H > 0` and `S > 0` and every document, over the
reals, `hamScore - spamScore = (pDHam + ln(H/T)) - (pDSpam + ln(S/T))`, so
`hamScore > spamScore` exactly when `pDHam + ln(H/T) > pDSpam + ln(S/T)`, and the tally is
the same whatever is subtracted from both sums in place of `pD`. -/
theorem pD_cancels_in_comparison (mc : mailCategorizer) (d : Bow) (order : List String)
    (tally : Int × Int) (_hH : 0 < mc.totalHamCount) (_hS : 0 < mc.totalSpamCount)
    (_hperm : order.Perm d.keys) :
    (scoreWords Real.log mc order).1 - (scoreWords Real.log mc order).2 =
      ((order.foldl (scoreWord Real.log mc) { pDHam := 0, pDSpam := 0, pD := 0 }).pDHam +
          Real.log ((mc.totalHamCount : ℝ) / (mc.totalCount : ℝ))) -
        ((order.foldl (scoreWord Real.log mc) { pDHam := 0, pDSpam := 0, pD := 0 }).pDSpam +
          Real.log ((mc.totalSpamCount : ℝ) / (mc.totalCount : ℝ))) ∧
    ((scoreWords Real.log mc order).1 > (scoreWords Real.log mc order).2 ↔
      (order.foldl (scoreWord Real.log mc) { pDHam := 0, pDSpam := 0, pD := 0 }).pDHam +
          Real.log ((mc.totalHamCount : ℝ) / (mc.totalCount : ℝ)) >
        (order.foldl (scoreWord Real.log mc) { pDHam := 0, pDSpam := 0, pD := 0 }).pDSpam +
          Real.log ((mc.totalSpamCount : ℝ) / (mc.totalCount : ℝ))) ∧
    (∀ x : ℝ,
      countMail tally
        ((order.foldl (scoreWord Real.log mc) { pDHam := 0, pDSpam := 0, pD := 0 }).pDHam +
          Real.log ((mc.totalHamCount : ℝ) / (mc.totalCount : ℝ)) - x)
        ((order.foldl (scoreWord Real.log mc) { pDHam := 0, pDSpam := 0, pD := 0 }).pDSpam +
          Real.log ((mc.totalSpamCount : ℝ) / (mc.totalCount : ℝ)) - x) =
      countMail tally (scoreWords Real.log mc order).1 (scoreWords Real.log mc order).2) := by
  refine ⟨?_, ?_, ?_⟩
  · simp only [scoreWords]
    ring
  · simp only [scoreWords, gt_iff_lt]
    constructor
    · intro h
      linarith
    · intro h
      linarith
  · intro x
    simp only [countMail_eq, scoreWords]
    by_cases h : (order.foldl (scoreWord Real.log mc)
          { pDHam := 0, pDSpam := 0, pD := 0 }).pDSpam +
        Real.log ((mc.totalSpamCount : ℝ) / (mc.totalCount : ℝ)) <
        (order.foldl (scoreWord Real.log mc) { pDHam := 0, pDSpam := 0, pD := 0 }).pDHam +
        Real.log ((mc.totalHamCount : ℝ) / (mc.totalCount : ℝ))
    · rw [if_pos (by linarith), if_pos (by linarith)]
    · rw [if_neg (by linarith), if_neg (by linarith)]

theorem pD_cancels_in_comparison_witness :
    (0 < exampleCategorizer.totalHamCount ∧ 0 < exampleCategorizer.totalSpamCount ∧
      ["free"].Perm freeMail.keys) ∧
    (scoreWords Real.log exampleCategorizer ["free"]).1 -
        (scoreWords Real.log exampleCategorizer ["free"]).2 =
      ((["free"].foldl (scoreWord Real.log exampleCategorizer)
            { pDHam := 0, pDSpam := 0, pD := 0 }).pDHam +
          Real.log ((exampleCategorizer.totalHamCount : ℝ) /
            (exampleCategorizer.totalCount : ℝ))) -
        ((["free"].foldl (scoreWord Real.log exampleCategorizer)
            { pDHam := 0, pDSpam := 0, pD := 0 }).pDSpam +
          Real.log ((exampleCategorizer.totalSpamCount : ℝ) /
            (exampleCategorizer.totalCount : ℝ))) :=
  ⟨⟨by decide, by decide, by decide⟩,
    (pD_cancels_in_comparison exampleCategorizer freeMail ["free"] (0, 0)
      (by decide) (by decide) (by decide)).1⟩

/-! ## Exchanging the two models -/

/-- C20: for every pair of models `A`, `B` with totals `a`, `b` and every document, if
scoring with `newMailCategorizer(A, B, a, b)` returns `(x, y)` then, over the reals, scoring
with `newMailCategorizer(B, A, b, a)` returns `(y, x)`, in whatever order the words are
visited each time; the two decisions are opposite exactly when `x ≠ y`, and both are spam
when `x = y`. -/
theorem swap_exchanges_scores (A B : Bow) (a b : Int) (d : Bow) (o1 o2 : List String)
    (h1 : o1.Perm d.keys) (h2 : o2.Perm d.keys) :
    scoreWords Real.log (newMailCategorizer B A b a) o2 =
      ((scoreWords Real.log (newMailCategorizer A B a b) o1).2,
       (scoreWords Real.log (newMailCategorizer A B a b) o1).1) ∧
    ((((scoreWords Real.log (newMailCategorizer A B a b) o1).1 >
          (scoreWords Real.log (newMailCategorizer A B a b) o1).2) ↔
        ¬ ((scoreWords Real.log (newMailCategorizer B A b a) o2).1 >
          (scoreWords Real.log (newMailCategorizer B A b a) o2).2)) ↔
      (scoreWords Real.log (newMailCategorizer A B a b) o1).1 ≠
        (scoreWords Real.log (newMailCategorizer A B a b) o1).2) ∧
    ((scoreWords Real.log (newMailCategorizer A B a b) o1).1 =
        (scoreWords Real.log (newMailCategorizer A B a b) o1).2 →
      ∀ tally : Int × Int,
        countMail tally (scoreWords Real.log (newMailCategorizer A B a b) o1).1
            (scoreWords Real.log (newMailCategorizer A B a b) o1).2 =
          (tally.1, wrapInt (tally.2 + 1)) ∧
        countMail tally (scoreWords Real.log (newMailCategorizer B A b a) o2).1
            (scoreWords Real.log (newMailCategorizer B A b a) o2).2 =
          (tally.1, wrapInt (tally.2 + 1))) := by
  have hswap : scoreWords Real.log (newMailCategorizer B A b a) o2 =
      ((scoreWords Real.log (newMailCategorizer A B a b) o1).2,
       (scoreWords Real.log (newMailCategorizer A B a b) o1).1) := by
    rw [← scoreWords_swap A B a b o1 (nodup_of_perm_keys h1)]
    apply scoreWords_real_congr _ o2 o1 (nodup_of_perm_keys h2) (nodup_of_perm_keys h1)
    rw [toFinset_of_perm_keys h2, toFinset_of_perm_keys h1]
  rw [hswap]
  refine ⟨rfl, ?_, ?_⟩
  · simp only [gt_iff_lt, not_lt]
    constructor
    · intro h heq
      rw [heq] at h
      exact absurd (h.mpr le_rfl) (lt_irrefl _)
    · intro hne
      constructor
      · intro h
        exact h.le
      · intro h
        exact lt_of_le_of_ne h (Ne.symm hne)
  · intro heq tally
    rw [countMail_eq, countMail_eq, heq]
    simp only [lt_irrefl, if_false, and_self]

theorem swap_exchanges_scores_witness :
    (["free"].Perm freeMail.keys) ∧
    scoreWords Real.log (newMailCategorizer exampleSpam exampleHam 16 6) ["free"] =
      ((scoreWords Real.log (newMailCategorizer exampleHam exampleSpam 6 16) ["free"]).2,
       (scoreWords Real.log (newMailCategorizer exampleHam exampleSpam 6 16) ["free"]).1) :=
  ⟨by decide,
    (swap_exchanges_scores exampleHam exampleSpam 6 16 freeMail ["free"] ["free"]
      (by decide) (by decide)).1⟩

/-! ## Scores in float64 arithmetic -/

theorem F64.lt_irrefl (x : F64) : ¬ x < x := by
  show ¬ (F64.lt x x = true)
  cases x <;> simp [F64.lt]

/-- The running sums depend on `math.Log` only through its values at the arguments of the
calls. -/
theorem foldl_scoreWord_congr_log {F : Type} [Add F] [Div F] [IntCast F]
    (log1 log2 : F → F) (mc : mailCategorizer)
    (order : List String) (acc : Sums F)
    (h : ∀ x ∈ (logArgsOfWords mc order : List F), log1 x = log2 x) :
    order.foldl (scoreWord log1 mc) acc = order.foldl (scoreWord log2 mc) acc := by
  induction order generalizing acc with
  | nil => rfl
  | cons w ws ih =>
    have hws : ∀ x ∈ (logArgsOfWords mc ws : List F), log1 x = log2 x := by
      intro x hx
      apply h
      unfold logArgsOfWords
      exact List.mem_append_right _ hx
    have hstep : scoreWord log1 mc acc w = scoreWord log2 mc acc w := by
      unfold scoreWord
      by_cases hskip : mc.hamBow.get w = 0 ∨ mc.spamBow.get w = 0
      · rw [if_pos hskip, if_pos hskip]
      · rw [if_neg hskip, if_neg hskip]
        have hmem : ∀ x ∈ [(mc.hamBow.get w : F) / (mc.totalHamCount : F),
            (mc.spamBow.get w : F) / (mc.totalSpamCount : F),
            (wrapInt (mc.hamBow.get w + mc.spamBow.get w) : F) / (mc.totalCount : F)],
            log1 x = log2 x := by
          intro x hx
          apply h
          unfold logArgsOfWords
          rw [if_neg hskip]
          exact List.mem_append_left _ hx
        rw [hmem _ (by simp), hmem _ (by simp), hmem _ (by simp)]
    rw [List.foldl_cons, List.foldl_cons, hstep]
    exact ih _ hws

/-- The scores depend on `math.Log` only through its values at the arguments of the
calls. -/
theorem scoreWords_congr_log {F : Type} [Zero F] [Add F] [Sub F] [Div F] [IntCast F]
    (log1 log2 : F → F) (mc : mailCategorizer)
    (order : List String) (h : ∀ x ∈ (logArgs mc order : List F), log1 x = log2 x) :
    scoreWords log1 mc order = scoreWords log2 mc order := by
  unfold scoreWords
  have h1 : log1 ((mc.totalHamCount : F) / (mc.totalCount : F)) =
      log2 ((mc.totalHamCount : F) / (mc.totalCount : F)) :=
    h _ (by unfold logArgs; simp)
  have h2 : log1 ((mc.totalSpamCount : F) / (mc.totalCount : F)) =
      log2 ((mc.totalSpamCount : F) / (mc.totalCount : F)) :=
    h _ (by unfold logArgs; simp)
  have h3 : ∀ x ∈ (logArgsOfWords mc order : List F), log1 x = log2 x := by
    intro x hx
    apply h
    unfold logArgs
    exact List.mem_cons_of_mem _ (List.mem_cons_of_mem _ hx)
  simp only [h1, h2, foldl_scoreWord_congr_log log1 log2 mc order _ h3]

/-- A function that has the values a table lists is the function of the table wherever the
table has an entry. -/
theorem tableLog_of_agrees (table : List (F64 × F64)) (log : F64 → F64)
    (h : ∀ p ∈ table, log p.1 = p.2) (x : F64) (hx : (table.lookup x).isSome = true) :
    log x = tableLog table x := by
  induction table with
  | nil => simp at hx
  | cons p ps ih =>
    obtain ⟨k, v⟩ := p
    unfold tableLog
    by_cases hk : x = k
    · subst hk
      simp only [List.lookup_cons, beq_self_eq_true]
      exact h (x, v) (List.mem_cons_self _ _)
    · have hne : (x == k) = false := by simpa using hk
      simp only [List.lookup_cons, hne] at hx ⊢
      exact ih (fun q hq => h q (List.mem_cons_of_mem _ hq)) hx

/-- With a `math.Log` that has the values of a table, the scores are those computed from
the table, when the table has every argument of the calls. -/
theorem scoreWords_of_table (table : List (F64 × F64)) (log : F64 → F64)
    (mc : mailCategorizer) (order : List String) (h : ∀ p ∈ table, log p.1 = p.2)
    (hargs : ∀ x ∈ (logArgs mc order : List F64), (table.lookup x).isSome = true) :
    scoreWords log mc order = scoreWords (tableLog table) mc order :=
  scoreWords_congr_log log (tableLog table) mc order
    (fun x hx => tableLog_of_agrees table log h x (hargs x hx))

theorem mathLogTable_consistent :
    ∀ p ∈ mathLogTable, tableLog mathLogTable p.1 = p.2 := by
  decide

theorem floatCategorizer_xyz (log : F64 → F64) (h : ∀ p ∈ mathLogTable, log p.1 = p.2) :
    scoreWords log floatCategorizer ["x", "y", "z"] =
      (F64.fin (-8206437449027085) (-49), F64.fin (-8206437449027087) (-49)) := by
  rw [scoreWords_of_table mathLogTable log floatCategorizer _ h (by decide)]
  decide

theorem floatCategorizer_yzx (log : F64 → F64) (h : ∀ p ∈ mathLogTable, log p.1 = p.2) :
    scoreWords log floatCategorizer ["y", "z", "x"] =
      (F64.fin (-8206437449027087) (-49), F64.fin (-8206437449027085) (-49)) := by
  rw [scoreWords_of_table mathLogTable log floatCategorizer _ h (by decide)]
  decide

theorem floatCategorizer_yzqx (log : F64 → F64) (h : ∀ p ∈ mathLogTable, log p.1 = p.2) :
    scoreWords log floatCategorizer ["y", "z", "q", "x"] =
      (F64.fin (-8206437449027087) (-49), F64.fin (-8206437449027085) (-49)) := by
  rw [scoreWords_of_table mathLogTable log floatCategorizer _ h (by decide)]
  decide

theorem floatCategorizerSwapped_yzx (log : F64 → F64)
    (h : ∀ p ∈ mathLogTable, log p.1 = p.2) :
    scoreWords log floatCategorizerSwapped ["y", "z", "x"] =
      (F64.fin (-8206437449027085) (-49), F64.fin (-8206437449027087) (-49)) := by
  rw [scoreWords_of_table mathLogTable log floatCategorizerSwapped _ h (by decide)]
  decide

theorem countMail_F64 (tally : Int × Int) (ham spam : F64) :
    countMail tally ham spam =
      (if spam < ham then (wrapInt (tally.1 + 1), tally.2)
       else (tally.1, wrapInt (tally.2 + 1))) := rfl

/-- C2, the counterexample: in float64 arithmetic, with a `math.Log` that has the values of
`mathLogTable`, the word "q" has a zero count in both models of `floatCategorizer`, and the
document with the words "x", "y", "z" and "q", visited in the order "y", "z", "q", "x", gets
scores that differ from those of the document without "q", visited in the order "x", "y",
"z". -/
theorem skipped_word_changes_float64_scores :
    (floatCategorizer.hamBow.get "q" = 0 ∨ floatCategorizer.spamBow.get "q" = 0) ∧
    ["y", "z", "q", "x"].Perm (AList.insert "q" 1 xyzMail).keys ∧
    ["x", "y", "z"].Perm (AList.erase "q" xyzMail).keys ∧
    (totalWordCountOver floatModelA.keys floatModelA = floatCategorizer.totalHamCount ∧
      totalWordCountOver floatModelB.keys floatModelB = floatCategorizer.totalSpamCount ∧
      floatCategorizer.totalCount = 20000000) ∧
    (∀ p ∈ mathLogTable, tableLog mathLogTable p.1 = p.2) ∧
    (∀ log : F64 → F64, (∀ p ∈ mathLogTable, log p.1 = p.2) →
      scoreWords log floatCategorizer ["y", "z", "q", "x"] =
        (F64.fin (-8206437449027087) (-49), F64.fin (-8206437449027085) (-49)) ∧
      scoreWords log floatCategorizer ["x", "y", "z"] =
        (F64.fin (-8206437449027085) (-49), F64.fin (-8206437449027087) (-49)) ∧
      scoreWords log floatCategorizer ["y", "z", "q", "x"] ≠
        scoreWords log floatCategorizer ["x", "y", "z"]) := by
  refine ⟨by decide, by decide, by decide, by decide, mathLogTable_consistent, ?_⟩
  intro log h
  rw [floatCategorizer_yzqx log h, floatCategorizer_xyz log h]
  exact ⟨rfl, rfl, by decide⟩

/-- C3, the counterexample: in float64 arithmetic, with a `math.Log` that has the values of
`mathLogTable`, two documents with the same words "x", "y", "z" (and different counts of
"x"), the first visited in the order "x", "y", "z" and the second in the order "y", "z",
"x", get different scores from `floatCategorizer`: the first is counted as ham and the second
as spam. -/
theorem same_words_different_float64_scores :
    ["x", "y", "z"].Perm xyzMail.keys ∧ ["y", "z", "x"].Perm xyzMailTwice.keys ∧
    xyzMail.keys.Perm xyzMailTwice.keys ∧ xyzMail.get "x" = 1 ∧ xyzMailTwice.get "x" = 2 ∧
    (totalWordCountOver floatModelA.keys floatModelA = floatCategorizer.totalHamCount ∧
      totalWordCountOver floatModelB.keys floatModelB = floatCategorizer.totalSpamCount ∧
      floatCategorizer.totalCount = 20000000) ∧
    (∀ p ∈ mathLogTable, tableLog mathLogTable p.1 = p.2) ∧
    (∀ log : F64 → F64, (∀ p ∈ mathLogTable, log p.1 = p.2) →
      scoreWords log floatCategorizer ["x", "y", "z"] =
        (F64.fin (-8206437449027085) (-49), F64.fin (-8206437449027087) (-49)) ∧
      scoreWords log floatCategorizer ["y", "z", "x"] =
        (F64.fin (-8206437449027087) (-49), F64.fin (-8206437449027085) (-49)) ∧
      scoreWords log floatCategorizer ["x", "y", "z"] ≠
        scoreWords log floatCategorizer ["y", "z", "x"] ∧
      countMail (0, 0) (scoreWords log floatCategorizer ["x", "y", "z"]).1
        (scoreWords log floatCategorizer ["x", "y", "z"]).2 = (1, 0) ∧
      countMail (0, 0) (scoreWords log floatCategorizer ["y", "z", "x"]).1
        (scoreWords log floatCategorizer ["y", "z", "x"]).2 = (0, 1)) := by
  refine ⟨by decide, by decide, by decide, by decide, by decide, by decide,
    mathLogTable_consistent, ?_⟩
  intro log h
  rw [floatCategorizer_xyz log h, floatCategorizer_yzx log h]
  exact ⟨rfl, rfl, by decide, by decide, by decide⟩

theorem mem_of_lookup_eq_some (table : List (F64 × F64)) (x v : F64)
    (h : table.lookup x = some v) : x ∈ table.map Prod.fst := by
  induction table with
  | nil => simp [List.lookup] at h
  | cons p rest ih =>
    obtain ⟨k, u⟩ := p
    by_cases hk : x = k
    · simp [hk]
    · have hb : (x == k) = false := by simpa using hk
      rw [List.lookup_cons, hb] at h
      simp only [List.map_cons, List.mem_cons]
      exact Or.inr (ih h)

/-- C6, the counterexample: in float64 arithmetic, whatever `math.Log` returns, the document
whose only word is "meeting", a word of neither model, is counted as spam by the classifier
with `H = 2^53 + 1`, `S = 2^53` and `T = H + S`, although `H > S`: the two totals have the
same conversion to `float64`.  And with `H = 2^62 + 2^61` and `S = 2^62` the `int` sum `T` is
negative, the logarithm of a negative number is not a number, and the document is counted as
spam although `H > S`. -/
theorem prior_does_not_decide_in_float64 :
    ["meeting"].Perm meetingMail.keys ∧
    (totalWordCountOver roundedHamModel.keys roundedHamModel =
        roundedTotalsCategorizer.totalHamCount ∧
      totalWordCountOver roundedSpamModel.keys roundedSpamModel =
        roundedTotalsCategorizer.totalSpamCount ∧
      0 < roundedTotalsCategorizer.totalSpamCount ∧
      roundedTotalsCategorizer.totalSpamCount < roundedTotalsCategorizer.totalHamCount ∧
      roundedTotalsCategorizer.totalCount =
        roundedTotalsCategorizer.totalHamCount + roundedTotalsCategorizer.totalSpamCount ∧
      ∀ w ∈ meetingMail.keys, ¬ (roundedTotalsCategorizer.hamBow.get w ≠ 0 ∧
        roundedTotalsCategorizer.spamBow.get w ≠ 0)) ∧
    ((roundedTotalsCategorizer.totalHamCount : F64) =
      (roundedTotalsCategorizer.totalSpamCount : F64)) ∧
    (∀ log : F64 → F64,
      countMail (0, 0) (scoreWords log roundedTotalsCategorizer ["meeting"]).1
        (scoreWords log roundedTotalsCategorizer ["meeting"]).2 = (0, 1)) ∧
    (totalWordCountOver wrappedHamModel.keys wrappedHamModel =
        wrappedTotalCategorizer.totalHamCount ∧
      totalWordCountOver wrappedSpamModel.keys wrappedSpamModel =
        wrappedTotalCategorizer.totalSpamCount ∧
      0 < wrappedTotalCategorizer.totalSpamCount ∧
      wrappedTotalCategorizer.totalSpamCount < wrappedTotalCategorizer.totalHamCount ∧
      isGoInt wrappedTotalCategorizer.totalHamCount ∧
      wrappedTotalCategorizer.totalCount < 0 ∧
      ∀ w ∈ meetingMail.keys, ¬ (wrappedTotalCategorizer.hamBow.get w ≠ 0 ∧
        wrappedTotalCategorizer.spamBow.get w ≠ 0)) ∧
    (∀ x : F64, x < 0 → tableLog mathLogTable x = F64.nan) ∧
    (∀ log : F64 → F64, (∀ x : F64, x < 0 → log x = F64.nan) →
      countMail (0, 0) (scoreWords log wrappedTotalCategorizer ["meeting"]).1
        (scoreWords log wrappedTotalCategorizer ["meeting"]).2 = (0, 1)) := by
  have hcast : (roundedTotalsCategorizer.totalHamCount : F64) =
      (roundedTotalsCategorizer.totalSpamCount : F64) := by decide
  have hneg : ∀ x : F64, x < 0 → tableLog mathLogTable x = F64.nan := by
    intro x hx
    unfold tableLog
    cases hl : mathLogTable.lookup x with
    | none => rfl
    | some v =>
      exfalso
      have hmem : x ∈ mathLogTable.map Prod.fst := mem_of_lookup_eq_some mathLogTable x v hl
      have hall : ∀ y ∈ mathLogTable.map Prod.fst, ¬ y < 0 := by decide
      exact hall x hmem hx
  refine ⟨by decide, by decide, hcast, ?_, by decide, hneg, ?_⟩
  · intro log
    have hfold := foldl_scoreWord_all_skipped log roundedTotalsCategorizer ["meeting"]
      { pDHam := 0, pDSpam := 0, pD := 0 } (by decide)
    have heq : (scoreWords log roundedTotalsCategorizer ["meeting"]).1 =
        (scoreWords log roundedTotalsCategorizer ["meeting"]).2 := by
      unfold scoreWords
      simp only [hfold, hcast]
    rw [countMail_F64, heq, if_neg (F64.lt_irrefl _)]
    decide
  · intro log hlog
    have hfold := foldl_scoreWord_all_skipped log wrappedTotalCategorizer ["meeting"]
      { pDHam := 0, pDSpam := 0, pD := 0 } (by decide)
    have h1 : log ((wrappedTotalCategorizer.totalHamCount : F64) /
        (wrappedTotalCategorizer.totalCount : F64)) = F64.nan := hlog _ (by decide)
    have h2 : log ((wrappedTotalCategorizer.totalSpamCount : F64) /
        (wrappedTotalCategorizer.totalCount : F64)) = F64.nan := hlog _ (by decide)
    have hs : scoreWords log wrappedTotalCategorizer ["meeting"] = (F64.nan, F64.nan) := by
      unfold scoreWords
      simp only [hfold, h1, h2]
      decide
    rw [hs]
    decide

/-- C8, the counterexample: the models `{"a":1}` and `{"b":1}` are distinct, have disjoint
vocabularies and totals `1`, and the document whose only word is "a" is counted as spam
both with `(ham, spam) = (A, B)` and with `(ham, spam) = (B, A)`, the two scores being equal.
And in float64 arithmetic, with a `math.Log` that has the values of `mathLogTable`, the
document with the words "x", "y", "z" is counted as ham by `floatCategorizer`, which visits
them in the order "x", "y", "z", and as ham by the classifier with the two models exchanged,
which visits them in the order "y", "z", "x", the two scores differing each time. -/
theorem swap_decisions_not_opposite :
    modelA ≠ modelB ∧ (∀ w, ¬ (w ∈ modelA ∧ w ∈ modelB)) ∧
    totalWordCountOver modelA.keys modelA = 1 ∧ totalWordCountOver modelB.keys modelB = 1 ∧
    countMail (0, 0) (scoreWords Real.log (newMailCategorizer modelA modelB 1 1) ["a"]).1
      (scoreWords Real.log (newMailCategorizer modelA modelB 1 1) ["a"]).2 = (0, 1) ∧
    countMail (0, 0) (scoreWords Real.log (newMailCategorizer modelB modelA 1 1) ["a"]).1
      (scoreWords Real.log (newMailCategorizer modelB modelA 1 1) ["a"]).2 = (0, 1) ∧
    floatModelA ≠ floatModelB ∧
    floatCategorizer = newMailCategorizer floatModelA floatModelB 10000000 10000000 ∧
    floatCategorizerSwapped = newMailCategorizer floatModelB floatModelA 10000000 10000000 ∧
    ["x", "y", "z"].Perm xyzMail.keys ∧ ["y", "z", "x"].Perm xyzMail.keys ∧
    (∀ p ∈ mathLogTable, tableLog mathLogTable p.1 = p.2) ∧
    (∀ log : F64 → F64, (∀ p ∈ mathLogTable, log p.1 = p.2) →
      (scoreWords log floatCategorizer ["x", "y", "z"]).1 ≠
        (scoreWords log floatCategorizer ["x", "y", "z"]).2 ∧
      (scoreWords log floatCategorizerSwapped ["y", "z", "x"]).1 ≠
        (scoreWords log floatCategorizerSwapped ["y", "z", "x"]).2 ∧
      countMail (0, 0) (scoreWords log floatCategorizer ["x", "y", "z"]).1
        (scoreWords log floatCategorizer ["x", "y", "z"]).2 = (1, 0) ∧
      countMail (0, 0) (scoreWords log floatCategorizerSwapped ["y", "z", "x"]).1
        (scoreWords log floatCategorizerSwapped ["y", "z", "x"]).2 = (1, 0)) := by
  have h1 : (scoreWords Real.log (newMailCategorizer modelA modelB 1 1) ["a"]).1 =
      (scoreWords Real.log (newMailCategorizer modelA modelB 1 1) ["a"]).2 := by
    rw [scoreWords_all_skipped (newMailCategorizer modelA modelB 1 1) ["a"] (by decide)]
    rfl
  have h2 : (scoreWords Real.log (newMailCategorizer modelB modelA 1 1) ["a"]).1 =
      (scoreWords Real.log (newMailCategorizer modelB modelA 1 1) ["a"]).2 := by
    rw [scoreWords_all_skipped (newMailCategorizer modelB modelA 1 1) ["a"] (by decide)]
    rfl
  have hA : modelA.keys = ["a"] := by decide
  have hB : modelB.keys = ["b"] := by decide
  refine ⟨?_, ?_, by decide, by decide, ?_, ?_, ?_, rfl, rfl, by decide, by decide,
    mathLogTable_consistent, ?_⟩
  · intro h
    rw [h, hB] at hA
    exact absurd hA (by decide)
  · intro w hw
    rw [AList.mem_keys, AList.mem_keys, hA, hB, List.mem_singleton, List.mem_singleton] at hw
    have hab : "a" = "b" := hw.1.symm.trans hw.2
    exact absurd hab (by decide)
  · rw [countMail_eq, h1, if_neg (lt_irrefl _)]
    decide
  · rw [countMail_eq, h2, if_neg (lt_irrefl _)]
    decide
  · exact fun h => absurd (congrArg (fun m => Bow.get m "x") h) (by decide)
  · intro log h
    rw [floatCategorizer_xyz log h, floatCategorizerSwapped_yzx log h]
    exact ⟨by decide, by decide, by decide, by decide⟩

end Gayes
